import Mathlib

/-!
# StudentForm.jsx: the reducer, the classification and the submit protocol

A shallow embedding of `src/components/StudentForm.jsx`.

* JavaScript numbers are modelled by `JsNum`: `NaN`, the two infinities and the finite
  doubles, each given by its exact rational value. Every arithmetic result and every
  converted literal is rounded to the nearest double, ties to even (`JsNum.ofRat`), with
  overflow to the infinities and gradual underflow. The sign of zero is not represented:
  the comparisons, `String` and `toFixed` of the component treat the two zeros alike.
* JavaScript strings are Lean strings, processed through their list of characters.
* JavaScript arrays of records are lists of slots, because an assignment past the end
  of an array creates empty slots.
-/

namespace StudentForm

/-! ## Numbers -/

/-- A JavaScript number: `NaN`, `Infinity`, `-Infinity` or a finite value. -/
inductive JsNum where
  | nan
  | posInf
  | negInf
  | fin (q : ℚ)
  deriving DecidableEq

/-- Rounding of a rational to the nearest integer, ties to the even one. -/
def roundHalfEven (x : ℚ) : ℤ :=
  if x - ⌊x⌋ < 1 / 2 then ⌊x⌋
  else if 1 / 2 < x - ⌊x⌋ then ⌊x⌋ + 1
  else if ⌊x⌋ % 2 = 0 then ⌊x⌋
  else ⌊x⌋ + 1

/-- The search for the binary logarithm of a natural number, by halving. -/
def floorLog2From : Nat → Nat → Nat
  | 0, _ => 0
  | fuel + 1, n => if n < 2 then 0 else floorLog2From fuel (n / 2) + 1

/-- The binary logarithm of a positive natural number, rounded down. -/
def floorLog2 (n : Nat) : Nat := floorLog2From n n

/-- The binary exponent of a rational that is not zero: the `e` with
`2 ^ e ≤ |q| < 2 ^ (e + 1)`, found next to the difference of the binary logarithms of
the numerator and the denominator. -/
def binaryExponent (q : ℚ) : ℤ :=
  if (2 : ℚ) ^ ((floorLog2 q.num.natAbs : ℤ) - (floorLog2 q.den : ℤ)) ≤ |q| then
    (floorLog2 q.num.natAbs : ℤ) - (floorLog2 q.den : ℤ)
  else (floorLog2 q.num.natAbs : ℤ) - (floorLog2 q.den : ℤ) - 1

/-- The spacing of the doubles around `q`: `2 ^ (e - 52)` for the binary exponent `e`
of `q`, and `2 ^ (-1074)` in the subnormal range. -/
def quantum (q : ℚ) : ℚ := (2 : ℚ) ^ (max (binaryExponent q) (-1022) - 52)

/-- The multiple of the spacing nearest to `q`, ties to the even multiple: the value of
the double nearest to `q` when it is in range. -/
def nearestDouble (q : ℚ) : ℚ := roundHalfEven (q / quantum q) * quantum q

namespace JsNum

/-- The number for a real value: the nearest double, ties to even, and an infinity
from `2 ^ 1024` on. -/
def ofRat (q : ℚ) : JsNum :=
  if q = 0 then fin 0
  else if (2 : ℚ) ^ 1024 ≤ nearestDouble q then posInf
  else if nearestDouble q ≤ -(2 : ℚ) ^ 1024 then negInf
  else fin (nearestDouble q)

/-- The operator `+` on numbers. -/
def add : JsNum → JsNum → JsNum
  | nan, _ => nan
  | _, nan => nan
  | posInf, negInf => nan
  | negInf, posInf => nan
  | posInf, _ => posInf
  | _, posInf => posInf
  | negInf, _ => negInf
  | _, negInf => negInf
  | fin a, fin b => ofRat (a + b)

/-- The sign of a number that is not `NaN`: `1`, `0` or `-1`. -/
def sgn : JsNum → ℤ
  | nan => 0
  | posInf => 1
  | negInf => -1
  | fin q => if 0 < q then 1 else if q < 0 then -1 else 0

/-- The infinity of the given sign, `NaN` for sign `0`. -/
def infOfSign (s : ℤ) : JsNum :=
  if 0 < s then posInf else if s < 0 then negInf else nan

/-- The operator `*` on numbers. -/
def mul : JsNum → JsNum → JsNum
  | nan, _ => nan
  | _, nan => nan
  | fin a, fin b => ofRat (a * b)
  | x, y => infOfSign (sgn x * sgn y)

/-- The operator `/` on numbers (a zero divisor is taken as `+0`). -/
def div : JsNum → JsNum → JsNum
  | nan, _ => nan
  | _, nan => nan
  | fin a, fin b => if b = 0 then infOfSign (sgn (fin a)) else ofRat (a / b)
  | fin _, _ => fin 0
  | _, fin b => if b < 0 then infOfSign (-1) else infOfSign 1
  | posInf, posInf => nan
  | posInf, negInf => nan
  | negInf, posInf => nan
  | negInf, negInf => nan

instance : Add JsNum := ⟨add⟩
instance : Mul JsNum := ⟨mul⟩
instance : Div JsNum := ⟨div⟩

/-- The comparison `x <= y`; false as soon as one side is `NaN`. -/
def le : JsNum → JsNum → Bool
  | nan, _ => false
  | _, nan => false
  | negInf, _ => true
  | _, posInf => true
  | posInf, _ => false
  | _, negInf => false
  | fin a, fin b => decide (a ≤ b)

/-- The comparison `x < y`; false as soon as one side is `NaN`. -/
def lt : JsNum → JsNum → Bool
  | nan, _ => false
  | _, nan => false
  | posInf, _ => false
  | _, negInf => false
  | negInf, _ => true
  | _, posInf => true
  | fin a, fin b => decide (a < b)

/-- The comparison `x >= y`. -/
def ge (x y : JsNum) : Bool := le y x

/-- The comparison `x > y`. -/
def gt (x y : JsNum) : Bool := lt y x

/-- The global function `isNaN` on a number. -/
def isNaN : JsNum → Bool
  | nan => true
  | _ => false

/-- The function `Number.isInteger`. -/
def isInteger : JsNum → Bool
  | fin q => decide (q.den = 1)
  | _ => false

end JsNum

/-! ## Strings -/

/-- The characters removed by `String.prototype.trim` and skipped by the numeric
conversion: the white space and line terminator code points of ECMAScript. -/
def isWhiteSpace (c : Char) : Bool :=
  c.toNat = 0x09 || c.toNat = 0x0A || c.toNat = 0x0B || c.toNat = 0x0C || c.toNat = 0x0D
    || c.toNat = 0x20 || c.toNat = 0xA0 || c.toNat = 0x1680
    || (0x2000 ≤ c.toNat && c.toNat ≤ 0x200A)
    || c.toNat = 0x2028 || c.toNat = 0x2029 || c.toNat = 0x202F || c.toNat = 0x205F
    || c.toNat = 0x3000 || c.toNat = 0xFEFF

/-- Removal of trailing white space from a list of characters. -/
def trimEnd (cs : List Char) : List Char :=
  (cs.reverse.dropWhile isWhiteSpace).reverse

/-- The list-of-characters form of `trim`. -/
def trimChars (cs : List Char) : List Char :=
  trimEnd (cs.dropWhile isWhiteSpace)

/-- The method `String.prototype.trim`. -/
def trim (s : String) : String := ⟨trimChars s.data⟩

/-- The character class `[A-Za-z ]`. -/
def isLetterOrSpace (c : Char) : Bool :=
  (65 ≤ c.toNat && c.toNat ≤ 90) || (97 ≤ c.toNat && c.toNat ≤ 122) || c.toNat = 32

/-- The test `/^[A-Za-z ]+$/.test(s)`: one or more characters, all letters or spaces. -/
def nameRegexTest (s : String) : Bool :=
  !s.data.isEmpty && s.data.all isLetterOrSpace

/-- The lower case of one character: the ASCII letters `A` to `Z`, and the two characters
outside ASCII whose lower case holds an ASCII letter, the Kelvin sign (`k`) and the
dotted capital I (`i` and a combining dot). Every other character is left as it is. -/
def lowerCaseChars (c : Char) : List Char :=
  if c.toNat = 0x212A then ['k']
  else if c.toNat = 0x130 then ['i', Char.ofNat 0x307]
  else [Char.toLower c]

/-- The method `toLowerCase`. The letters outside ASCII other than the two above are not
lower-cased; their lower case is never an ASCII letter, so on names of ASCII letters and
spaces (the names the form commits) the name filter agrees with the code. -/
def toLowerCase (s : String) : String := ⟨(s.data.map lowerCaseChars).flatten⟩

/-- Whether `t` occurs in `cs` as a contiguous block. -/
def includesChars : List Char → List Char → Bool
  | [], t => t.isEmpty
  | c :: cs, t => t.isPrefixOf (c :: cs) || includesChars cs t

/-- The method `String.prototype.includes`. -/
def includes (s t : String) : Bool := includesChars s.data t.data

/-! ## Conversions between strings and numbers -/

namespace JsNum

/-- The unary operator `-` on numbers. -/
def neg : JsNum → JsNum
  | nan => nan
  | posInf => negInf
  | negInf => posInf
  | fin q => fin (-q)

end JsNum

/-- The decimal digit characters `0` to `9`. -/
def isDecimalDigit (c : Char) : Bool := 48 ≤ c.toNat && c.toNat ≤ 57

/-- The value of a decimal digit character. -/
def digitValue (c : Char) : Nat := c.toNat - 48

/-- The number written by a list of decimal digit characters. -/
def natOfDigits (cs : List Char) : Nat :=
  cs.foldl (fun acc c => acc * 10 + digitValue c) 0

/-- The value of a digit character in the given radix (at most 16), if it is one. -/
def radixDigit (radix : Nat) (c : Char) : Option Nat :=
  let v : Option Nat :=
    if isDecimalDigit c then some (c.toNat - 48)
    else if 97 ≤ c.toNat ∧ c.toNat ≤ 102 then some (c.toNat - 87)
    else if 65 ≤ c.toNat ∧ c.toNat ≤ 70 then some (c.toNat - 55)
    else none
  v.filter (fun d => d < radix)

/-- The value of the digits of a `0x`, `0o` or `0b` literal; `NaN` when there is no
digit or a character is not a digit of the radix. -/
def radixValue (radix : Nat) (cs : List Char) : JsNum :=
  if cs.isEmpty then JsNum.nan
  else
    match cs.foldl (fun acc c => acc.bind fun a => (radixDigit radix c).map fun d => a * radix + d)
        (some (0 : Nat)) with
    | some n => JsNum.ofRat (n : ℚ)
    | none => JsNum.nan

/-- The non-decimal integer literals: `0x`, `0o` and `0b` (either case), unsigned. -/
def parseNonDecimal : List Char → Option JsNum
  | '0' :: c :: ds =>
    if c = 'x' ∨ c = 'X' then some (radixValue 16 ds)
    else if c = 'o' ∨ c = 'O' then some (radixValue 8 ds)
    else if c = 'b' ∨ c = 'B' then some (radixValue 2 ds)
    else none
  | _ => none

/-- The exponent part that may follow a decimal mantissa: nothing, or `e`/`E`, an
optional sign and one or more digits. -/
def parseExponent : List Char → Option ℤ
  | [] => some 0
  | c :: rest =>
    if c = 'e' ∨ c = 'E' then
      let signed : Bool × List Char :=
        match rest with
        | '+' :: ds => (false, ds)
        | '-' :: ds => (true, ds)
        | ds => (false, ds)
      if signed.2.isEmpty || !signed.2.all isDecimalDigit then none
      else some (if signed.1 then -(natOfDigits signed.2 : ℤ) else (natOfDigits signed.2 : ℤ))
    else none

/-- An unsigned decimal literal: `Infinity`, or digits with an optional fraction and
an optional exponent, at least one digit in the mantissa. -/
def parseUnsignedDecimal (cs : List Char) : JsNum :=
  if cs = "Infinity".data then JsNum.posInf
  else
    let ip := cs.takeWhile isDecimalDigit
    let r1 := cs.dropWhile isDecimalDigit
    let fp := match r1 with
      | '.' :: r => r.takeWhile isDecimalDigit
      | _ => []
    let r2 := match r1 with
      | '.' :: r => r.dropWhile isDecimalDigit
      | r => r
    if ip.isEmpty && fp.isEmpty then JsNum.nan
    else
      match parseExponent r2 with
      | none => JsNum.nan
      | some e =>
        JsNum.ofRat ((natOfDigits (ip ++ fp) : ℚ) / (10 : ℚ) ^ fp.length * (10 : ℚ) ^ e)

/-- A decimal literal with its optional sign. -/
def parseDecimal : List Char → JsNum
  | '+' :: cs => parseUnsignedDecimal cs
  | '-' :: cs => (parseUnsignedDecimal cs).neg
  | cs => parseUnsignedDecimal cs

/-- The conversion `Number(s)` of a string: white space is trimmed, the empty string is
`0`, a string that is not a numeric literal is `NaN`, and the value of a literal is
rounded to the nearest double. -/
def toNumber (s : String) : JsNum :=
  let t := trimChars s.data
  if t.isEmpty then JsNum.fin 0
  else
    match parseNonDecimal t with
    | some v => v
    | none => parseDecimal t

/-- Search for the number of decimal places of a rational: the first `j` at which
`q * 10 ^ j` is an integer. -/
def decimalPlacesFrom : Nat → ℚ → Nat → Nat
  | 0, _, j => j
  | fuel + 1, q, j => if q.den = 1 then j else decimalPlacesFrom fuel (q * 10) (j + 1)

/-- The number of decimal places of a finite decimal. For a rational that is not a finite
decimal, which no number of the program is, the search stops after `q.den` steps. -/
def decimalPlaces (q : ℚ) : Nat := decimalPlacesFrom q.den q 0

/-- Removal of the trailing zeros of a digit list. -/
def stripTrailingZeros (ds : List Char) : List Char :=
  (ds.reverse.dropWhile (fun c => c = '0')).reverse

/-- The exponent suffix of the scientific form: `e`, the sign, the digits of `|e|`. -/
def exponentSuffix (e : ℤ) : List Char :=
  'e' :: (if e < 0 then '-' else '+') :: Nat.toDigits 10 e.natAbs

/-- The decimal form that `Number::toString` gives to `s × 10 ^ (n - k)`, where `ds` are
the `k` digits of `s`. -/
def renderDigits (ds : List Char) (n : ℤ) : List Char :=
  let k : ℤ := ds.length
  if k ≤ n ∧ n ≤ 21 then ds ++ List.replicate (n - k).toNat '0'
  else if 0 < n ∧ n ≤ 21 then ds.take n.toNat ++ '.' :: ds.drop n.toNat
  else if -6 < n ∧ n ≤ 0 then '0' :: '.' :: (List.replicate (-n).toNat '0' ++ ds)
  else if ds.length = 1 then ds ++ exponentSuffix (n - 1)
  else ds.take 1 ++ '.' :: (ds.drop 1 ++ exponentSuffix (n - 1))

/-- The full decimal expansion of a positive finite decimal. -/
def exactToChars (q : ℚ) : List Char :=
  let j := decimalPlaces q
  let all := Nat.toDigits 10 ⌊q * (10 : ℚ) ^ j⌋.toNat
  renderDigits (stripTrailingZeros all) ((all.length : ℤ) - j)

/-- The decimal exponent of a positive rational: the `n` with `10 ^ (n - 1) ≤ q < 10 ^ n`,
found next to the difference of the digit counts of the numerator and the denominator. -/
def decimalExponent (q : ℚ) : ℤ :=
  if (10 : ℚ) ^ (((Nat.toDigits 10 q.num.natAbs).length : ℤ) -
      ((Nat.toDigits 10 q.den).length : ℤ)) ≤ q then
    ((Nat.toDigits 10 q.num.natAbs).length : ℤ) - ((Nat.toDigits 10 q.den).length : ℤ) + 1
  else ((Nat.toDigits 10 q.num.natAbs).length : ℤ) - ((Nat.toDigits 10 q.den).length : ℤ)

/-- Whether the decimal `s × 10 ^ z` converts to the number of value `q`. -/
def readsBack (q : ℚ) (s : ℕ) (z : ℤ) : Bool :=
  decide (JsNum.ofRat ((s : ℚ) * (10 : ℚ) ^ z) = JsNum.fin q)

/-- The integer `s` next to `q / 10 ^ z` for which `s × 10 ^ z` converts to `q`: the
nearer of the two neighbours when both do, the even one on a tie. -/
def nearestDigits (q : ℚ) (z : ℤ) : Option ℕ :=
  if readsBack q ⌊q / (10 : ℚ) ^ z⌋.toNat z && readsBack q (⌊q / (10 : ℚ) ^ z⌋.toNat + 1) z then
    (if q - (⌊q / (10 : ℚ) ^ z⌋.toNat : ℚ) * (10 : ℚ) ^ z <
        ((⌊q / (10 : ℚ) ^ z⌋.toNat + 1 : ℕ) : ℚ) * (10 : ℚ) ^ z - q then
      some ⌊q / (10 : ℚ) ^ z⌋.toNat
    else if ((⌊q / (10 : ℚ) ^ z⌋.toNat + 1 : ℕ) : ℚ) * (10 : ℚ) ^ z - q <
        q - (⌊q / (10 : ℚ) ^ z⌋.toNat : ℚ) * (10 : ℚ) ^ z then
      some (⌊q / (10 : ℚ) ^ z⌋.toNat + 1)
    else if ⌊q / (10 : ℚ) ^ z⌋.toNat % 2 = 0 then some ⌊q / (10 : ℚ) ^ z⌋.toNat
    else some (⌊q / (10 : ℚ) ^ z⌋.toNat + 1))
  else if readsBack q ⌊q / (10 : ℚ) ^ z⌋.toNat z then some ⌊q / (10 : ℚ) ^ z⌋.toNat
  else if readsBack q (⌊q / (10 : ℚ) ^ z⌋.toNat + 1) z then
    some (⌊q / (10 : ℚ) ^ z⌋.toNat + 1)
  else none

/-- The shortest digits that convert to `q`: the search tries `k`, `k + 1`, ...
significant digits, for the decimal exponent `n`, and gives the integer `s` and the
power `z = n - k` of the first `s × 10 ^ z` found. -/
def shortestDigits (q : ℚ) (n : ℤ) : Nat → Nat → Option (ℕ × ℤ)
  | 0, _ => none
  | fuel + 1, k =>
    match nearestDigits q (n - k) with
    | some s => some (s, n - k)
    | none => shortestDigits q n fuel (k + 1)

/-- The string of a positive double: the shortest digits that convert back to it, among
one to seventeen significant digits (seventeen always suffice for a double; the full
expansion stands for the case that none is found). -/
def positiveToChars (q : ℚ) : List Char :=
  match shortestDigits q (decimalExponent q) 17 1 with
  | some (s, z) =>
    renderDigits (stripTrailingZeros (Nat.toDigits 10 s)) (((Nat.toDigits 10 s).length : ℤ) + z)
  | none => exactToChars q

/-- The conversion `String(x)` of a number (`Number::toString`, radix 10). -/
def numberToString : JsNum → String
  | JsNum.nan => "NaN"
  | JsNum.posInf => "Infinity"
  | JsNum.negInf => "-Infinity"
  | JsNum.fin q =>
    if q = 0 then "0"
    else if q < 0 then ⟨'-' :: positiveToChars (-q)⟩
    else ⟨positiveToChars q⟩

/-- The method `x.toFixed(f)`. -/
def toFixed (x : JsNum) (f : Nat) : String :=
  match x with
  | JsNum.fin q =>
    let s : List Char := if q < 0 then ['-'] else []
    let a : ℚ := if q < 0 then -q else q
    if (10 : ℚ) ^ 21 ≤ a then ⟨s ++ (numberToString (JsNum.fin a)).data⟩
    else
      let n : Nat := ⌊a * (10 : ℚ) ^ f + 1 / 2⌋.toNat
      let m : List Char := Nat.toDigits 10 n
      if f = 0 then ⟨s ++ m⟩
      else
        let m1 := if m.length ≤ f then List.replicate (f + 1 - m.length) '0' ++ m else m
        ⟨s ++ (m1.take (m1.length - f) ++ '.' :: m1.drop (m1.length - f))⟩
  | x => numberToString x

/-! ## Classification -/

/-- The object returned by `calculateResult`. -/
structure Result where
  percentage : String
  division : String
  deriving DecidableEq

/-- The function `calculateResult`. -/
def calculateResult (marksArray : List JsNum) : Result :=
  let total := marksArray.foldl (fun a b => a + b) (JsNum.fin 0)
  let percentage := (total / JsNum.fin 500) * JsNum.fin 100
  let division :=
    if percentage.ge (JsNum.fin 60) then "First Division"
    else if percentage.ge (JsNum.fin 45) then "Second Division"
    else if percentage.ge (JsNum.fin 33) then "Third Division"
    else "Fail"
  { percentage := toFixed percentage 2, division := division }

/-! ## State -/

/-- A committed student record, as `handleSubmit` builds it. -/
structure Student where
  name : String
  age : JsNum
  marks : List JsNum
  percentage : String
  division : String
  deriving DecidableEq

/-- One position of the `students` array: an empty slot (left by an assignment past the
end), the value `undefined` (an empty slot after a copy by spread), or a record. -/
inductive Slot where
  | empty
  | undefined
  | record (s : Student)
  deriving DecidableEq

/-- What reading a position gives: the record, or nothing for `undefined`. -/
def Slot.read : Slot → Option Student
  | Slot.record s => some s
  | _ => none

/-- The value of the `age` draft: the string typed in the input, or the number that
`EDIT_STUDENT` copies from a record. -/
inductive JsValue where
  | str (s : String)
  | num (x : JsNum)
  deriving DecidableEq

/-- The conversion `Number(v)` of a draft value. -/
def JsValue.toNumber : JsValue → JsNum
  | JsValue.str s => StudentForm.toNumber s
  | JsValue.num x => x

/-- The state of the reducer. -/
structure State where
  name : String
  age : JsValue
  marks : List String
  students : List Slot
  editIndex : Option Nat
  errors : String
  preview : Option Result
  filterName : String
  filterDivision : String
  deriving DecidableEq

/-- The constant `initialState`. -/
def initialState : State :=
  { name := ""
    age := JsValue.str ""
    marks := ["", "", "", "", ""]
    students := []
    editIndex := none
    errors := ""
    preview := none
    filterName := ""
    filterDivision := "All" }

/-- The fields that the form sets through `SET_FIELD`. -/
inductive Field where
  | name
  | age
  | filterName
  | filterDivision
  deriving DecidableEq

/-- The actions of the reducer. -/
inductive Action where
  | SET_FIELD (field : Field) (value : String)
  | SET_MARK (index : Nat) (value : String)
  | SET_PREVIEW (value : Option Result)
  | SET_ERROR (value : String)
  | ADD_STUDENT (student : Student)
  | UPDATE_STUDENT (student : Student)
  | EDIT_STUDENT (index : Nat) (student : Student)
  | DELETE_STUDENT (index : Nat)
  | CLEAR_FORM
  deriving DecidableEq

/-- The copy `[...xs]` of an array: empty slots are read as `undefined`. -/
def spread (xs : List Slot) : List Slot :=
  xs.map fun s => match s with
    | Slot.empty => Slot.undefined
    | s => s

/-- The assignment `xs[i] = v`: inside the array the position is overwritten, past its
end the array grows to length `i + 1` and the positions in between are empty slots. -/
def arrayAssign (xs : List Slot) (i : Nat) (v : Slot) : List Slot :=
  if i < xs.length then xs.set i v
  else xs ++ List.replicate (i - xs.length) Slot.empty ++ [v]

/-- The call `xs.filter((_, i) => i !== index)`, with `i` counted from `start`: empty
slots are skipped, every other position but `index` is kept. -/
def filterIndexNe (index : Nat) : Nat → List Slot → List Slot
  | _, [] => []
  | i, s :: rest =>
    if s = Slot.empty ∨ i = index then filterIndexNe index (i + 1) rest
    else s :: filterIndexNe index (i + 1) rest

/-- The function `reducer`. `SET_FIELD` is taken on the four fields that the form sets,
with their string values, and `SET_MARK` on an index inside the marks array, as the form
dispatches it. In `UPDATE_STUDENT` an edit pointer `null` makes the assignment set a
property named `null`, which leaves the elements of the copy alone. -/
def reducer (state : State) : Action → State
  | Action.SET_FIELD Field.name value => { state with name := value }
  | Action.SET_FIELD Field.age value => { state with age := JsValue.str value }
  | Action.SET_FIELD Field.filterName value => { state with filterName := value }
  | Action.SET_FIELD Field.filterDivision value => { state with filterDivision := value }
  | Action.SET_MARK index value => { state with marks := state.marks.set index value }
  | Action.SET_PREVIEW value => { state with preview := value }
  | Action.SET_ERROR value => { state with errors := value }
  | Action.ADD_STUDENT student =>
    { state with
      students := spread state.students ++ [Slot.record student]
      name := ""
      age := JsValue.str ""
      marks := ["", "", "", "", ""]
      preview := none
      editIndex := none
      errors := "" }
  | Action.UPDATE_STUDENT student =>
    let updatedStudents :=
      match state.editIndex with
      | some i => arrayAssign (spread state.students) i (Slot.record student)
      | none => spread state.students
    { state with
      students := updatedStudents
      name := ""
      age := JsValue.str ""
      marks := ["", "", "", "", ""]
      preview := none
      editIndex := none
      errors := "" }
  | Action.EDIT_STUDENT index student =>
    { state with
      name := student.name
      age := JsValue.num student.age
      marks := student.marks.map numberToString
      editIndex := some index
      errors := "" }
  | Action.DELETE_STUDENT index =>
    { state with students := filterIndexNe index 0 state.students }
  | Action.CLEAR_FORM =>
    { state with
      name := ""
      age := JsValue.str ""
      marks := ["", "", "", "", ""]
      editIndex := none
      errors := ""
      preview := none }

/-! ## The component -/

/-- The value that the preview effect dispatches for the marks draft. -/
def previewValue (marks : List String) : Option Result :=
  let numMarks := marks.map toNumber
  if numMarks.all (fun m => !m.isNaN && m.ge (JsNum.fin 0) && m.le (JsNum.fin 100)) then
    some (calculateResult numMarks)
  else none

/-- The effect run when `state.marks` changes: it dispatches `SET_PREVIEW`. -/
def previewEffect (state : State) : Action :=
  Action.SET_PREVIEW (previewValue state.marks)

/-- The first guard of `handleSubmit`: the trimmed name fails the pattern. -/
def nameRejected (state : State) : Bool := !nameRegexTest (trim state.name)

/-- The second guard of `handleSubmit`, on `numAge = Number(state.age)`. -/
def ageRejected (state : State) : Bool :=
  let numAge := state.age.toNumber
  !numAge.isInteger || numAge.le (JsNum.fin 0) || numAge.gt (JsNum.fin 100)

/-- The third guard of `handleSubmit`, on `numMarks = state.marks.map(Number)`. -/
def marksRejected (state : State) : Bool :=
  let numMarks := state.marks.map toNumber
  numMarks.any (fun m => m.isNaN || m.lt (JsNum.fin 0) || m.gt (JsNum.fin 100))

/-- The record that `handleSubmit` builds from the draft. -/
def draftStudent (state : State) : Student :=
  let numAge := state.age.toNumber
  let numMarks := state.marks.map toNumber
  let result := calculateResult numMarks
  { name := trim state.name
    age := numAge
    marks := numMarks
    percentage := result.percentage
    division := result.division }

/-- The actions that `handleSubmit` dispatches, in order, from the rendered state. -/
def handleSubmitActions (state : State) : List Action :=
  Action.SET_ERROR "" ::
    (if nameRejected state then
      [Action.SET_ERROR "Name should only contain letters and spaces."]
    else if ageRejected state then
      [Action.SET_ERROR "Age should be a positive integer between 1 and 100."]
    else if marksRejected state then
      [Action.SET_ERROR "All marks must be between 0 and 100."]
    else if state.editIndex ≠ none then
      [Action.UPDATE_STUDENT (draftStudent state)]
    else
      [Action.ADD_STUDENT (draftStudent state)])

/-- The handler `handleSubmit`: the state after the reducer has run its dispatches. -/
def handleSubmit (state : State) : State :=
  (handleSubmitActions state).foldl reducer state

/-- The constant `filteredStudents`: the records kept by the two filters, in order. The
call is `none` when the callback reads `name` of `undefined` and throws; empty slots
are skipped. -/
def filteredStudents (state : State) : Option (List Student) :=
  state.students.foldr (fun slot acc =>
    match slot with
    | Slot.empty => acc
    | Slot.undefined => none
    | Slot.record s =>
      let nameMatch := includes (toLowerCase s.name) (toLowerCase state.filterName)
      let divisionMatch := state.filterDivision = "All" || s.division = state.filterDivision
      acc.map fun kept => if nameMatch && divisionMatch then s :: kept else kept)
    (some [])

/-- The action of the Delete button of the row at position `idx` of the table. -/
def rowDeleteAction (idx : Nat) : Action := Action.DELETE_STUDENT idx

/-- The action of the Edit button of the row at position `idx` of the table, which
shows the record `s`. -/
def rowEditAction (idx : Nat) (s : Student) : Action := Action.EDIT_STUDENT idx s

/-! ## Notions of the specification -/

/-- The order of the divisions: `Fail < Third Division < Second Division < First Division`. -/
def divisionRank (division : String) : Nat :=
  if division = "First Division" then 3
  else if division = "Second Division" then 2
  else if division = "Third Division" then 1
  else 0

/-- A letter `A` to `Z` or `a` to `z`. -/
def IsLetter (c : Char) : Prop :=
  ('A'.toNat ≤ c.toNat ∧ c.toNat ≤ 'Z'.toNat) ∨ ('a'.toNat ≤ c.toNat ∧ c.toNat ≤ 'z'.toNat)

/-- The name of the draft, without its leading and trailing white space, is non-empty
and holds only letters and space characters. -/
def ValidName (state : State) : Prop :=
  (trim state.name).data ≠ [] ∧ ∀ c ∈ (trim state.name).data, IsLetter c ∨ c = ' '

/-- The age of the draft converts to an integer between 1 and 100. -/
def ValidAge (state : State) : Prop :=
  ∃ n : ℤ, state.age.toNumber = JsNum.fin n ∧ 1 ≤ n ∧ n ≤ 100

/-- Every mark of the draft converts to a number, not `NaN`, in `[0,100]`. -/
def ValidMarks (state : State) : Prop :=
  ∀ s ∈ state.marks, ∃ q : ℚ, toNumber s = JsNum.fin q ∧ 0 ≤ q ∧ q ≤ 100

/-- The submit commits a record: it dispatches `ADD_STUDENT` or `UPDATE_STUDENT`. -/
def Commits (state : State) : Prop :=
  ∃ r, Action.ADD_STUDENT r ∈ handleSubmitActions state ∨
    Action.UPDATE_STUDENT r ∈ handleSubmitActions state

/-- A decimal digit `0` to `9`. -/
def IsDigit (c : Char) : Prop := '0'.toNat ≤ c.toNat ∧ c.toNat ≤ '9'.toNat

/-- An ASCII punctuation character: `!` to `/`, `:` to `@`, `[` to the backquote, and
the braces, bar and tilde. -/
def IsPunctuation (c : Char) : Prop :=
  ('!'.toNat ≤ c.toNat ∧ c.toNat ≤ '/'.toNat) ∨ (':'.toNat ≤ c.toNat ∧ c.toNat ≤ '@'.toNat) ∨
    ('['.toNat ≤ c.toNat ∧ c.toNat ≤ 96) ∨ (123 ≤ c.toNat ∧ c.toNat ≤ '~'.toNat)

/-- The characters of a rendered finite number: digits, the point, `e` and the signs. -/
def IsRenderChar (c : Char) : Prop :=
  isDecimalDigit c = true ∨ c = '.' ∨ c = 'e' ∨ c = '+' ∨ c = '-'

/-- A finite decimal: a rational whose denominator divides a power of ten. Every number
that the conversion of a string gives is one. -/
def IsDecimal (q : ℚ) : Prop := ∃ m : ℕ, q.den ∣ 10 ^ m

/-- A record produced by a successful submit: the record that `handleSubmit` builds from
a draft that passes the three checks. -/
def Submitted (r : Student) : Prop :=
  ∃ state : State, ValidName state ∧ ValidAge state ∧ ValidMarks state ∧ r = draftStudent state

/-! ## Example records and states -/

/-- A record as the form commits it for the draft `Ann`, 20, five marks of 60. -/
def ann : Student :=
  { name := "Ann", age := JsNum.fin 20
    marks := [JsNum.fin 60, JsNum.fin 60, JsNum.fin 60, JsNum.fin 60, JsNum.fin 60]
    percentage := "60.00", division := "First Division" }

/-- A record as the form commits it for the draft `Bob`, 21, five marks of 10. -/
def bob : Student :=
  { name := "Bob", age := JsNum.fin 21
    marks := [JsNum.fin 10, JsNum.fin 10, JsNum.fin 10, JsNum.fin 10, JsNum.fin 10]
    percentage := "10.00", division := "Fail" }

/-- A record as the form commits it for the draft `Anna`, 22, five marks of 45. -/
def anna : Student :=
  { name := "Anna", age := JsNum.fin 22
    marks := [JsNum.fin 45, JsNum.fin 45, JsNum.fin 45, JsNum.fin 45, JsNum.fin 45]
    percentage := "45.00", division := "Second Division" }

/-- The draft `Ann`, age `0`, five marks of 60, over one committed record and an earlier
error message. -/
def draftAgeZero : State :=
  { initialState with
    name := "Ann", age := JsValue.str "0", marks := ["60", "60", "60", "60", "60"]
    students := [Slot.record bob]
    errors := "Name should only contain letters and spaces." }

/-- The draft ` Ann `, age `20`, five marks of 60, over one committed record. -/
def draftAnn : State :=
  { initialState with
    name := " Ann ", age := JsValue.str "20", marks := ["60", "60", "60", "60", "60"]
    students := [Slot.record bob] }

/-- The records `ann` and `bob` with an edit of `bob` (row 1) begun, after which the
record `ann` (row 0) was deleted: the edit pointer is 1 and the list has length 1. -/
def staleEdit : State :=
  reducer
    (reducer { initialState with students := [Slot.record ann, Slot.record bob] }
      (Action.EDIT_STUDENT 1 bob))
    (Action.DELETE_STUDENT 0)

/-- The records `ann` and `bob` under the division filter `Fail`: the table shows the
single row `bob`, at row position 0. -/
def filteredToFail : State :=
  { initialState with
    students := [Slot.record ann, Slot.record bob], filterDivision := "Fail" }

/-- The records `ann` and `anna` under the name filter `ANN`. -/
def filteredToAnn : State :=
  { initialState with
    students := [Slot.record ann, Slot.record anna], filterName := "ANN" }

/-- The doubles of the marks `76.6`, `50.1`, `60.7`, `32.2`, `80.4`, in this order. -/
def marksFirstOrder : List ℚ :=
  [2695122902004531 / 35184372088832, 7050948166601933 / 140737488355328,
    4271382771584205 / 70368744177664, 2265873562520781 / 70368744177664,
    2828823515942093 / 35184372088832]

/-- The same five doubles with the last two exchanged: `76.6`, `50.1`, `60.7`, `80.4`,
`32.2`. -/
def marksSecondOrder : List ℚ :=
  [2695122902004531 / 35184372088832, 7050948166601933 / 140737488355328,
    4271382771584205 / 70368744177664, 2828823515942093 / 35184372088832,
    2265873562520781 / 70368744177664]

/-! ## Lemmas on digit strings -/

theorem toDigitsCore_eq (fuel : Nat) : ∀ (n : Nat) (ds : List Char), n < fuel →
    Nat.toDigitsCore 10 fuel n ds =
      (if n = 0 then ['0'] else (Nat.digits 10 n).reverse.map Nat.digitChar) ++ ds := by
  induction fuel with
  | zero => intro n ds h; omega
  | succ fuel ih =>
    intro n ds h
    unfold Nat.toDigitsCore
    by_cases h0 : n / 10 = 0
    · have hlt : n < 10 := by omega
      simp only [h0, if_true]
      by_cases hn : n = 0
      · subst hn; simp; rfl
      · have hpos : 0 < n := Nat.pos_of_ne_zero hn
        rw [if_neg hn, Nat.digits_def' (by norm_num) hpos, h0]
        simp [Nat.mod_eq_of_lt hlt]
    · simp only [h0, if_false]
      have hpos : 0 < n := by omega
      have hn : n ≠ 0 := by omega
      rw [ih (n / 10) _ (by omega), if_neg h0, if_neg hn, Nat.digits_def' (by norm_num) hpos]
      simp

theorem toDigits_eq (n : Nat) :
    Nat.toDigits 10 n =
      if n = 0 then ['0'] else (Nat.digits 10 n).reverse.map Nat.digitChar := by
  unfold Nat.toDigits
  rw [toDigitsCore_eq (n + 1) n [] (by omega)]
  simp

theorem toDigits_step (n : Nat) (h : 10 ≤ n) :
    Nat.toDigits 10 n = Nat.toDigits 10 (n / 10) ++ [Nat.digitChar (n % 10)] := by
  rw [toDigits_eq, toDigits_eq, if_neg (by omega), if_neg (by omega),
    Nat.digits_def' (by norm_num) (by omega)]
  simp

theorem toDigits_small (n : Nat) (h : n < 10) : Nat.toDigits 10 n = [Nat.digitChar n] := by
  interval_cases n <;> rfl

/-- The layout of `toFixed(2)`: the digits of the hundreds-quotient, a point, and the
two last digits. -/
theorem twoDecimals_layout (n : Nat) :
    (let m := Nat.toDigits 10 n
     let m1 := if m.length ≤ 2 then List.replicate (2 + 1 - m.length) '0' ++ m else m
     m1.take (m1.length - 2) ++ '.' :: m1.drop (m1.length - 2)) =
      Nat.toDigits 10 (n / 100) ++ ['.', Nat.digitChar (n / 10 % 10), Nat.digitChar (n % 10)] := by
  by_cases h1 : n < 10
  · have h2 : n / 100 = 0 := by omega
    have h3 : n / 10 % 10 = 0 := by omega
    rw [toDigits_small n h1, h2, h3, Nat.mod_eq_of_lt h1]
    rfl
  · by_cases h2 : n < 100
    · have h3 : n / 100 = 0 := by omega
      have h4 : n / 10 % 10 = n / 10 := by omega
      rw [toDigits_step n (by omega), toDigits_small (n / 10) (by omega), h3, h4]
      rfl
    · have e1 : Nat.toDigits 10 n =
          Nat.toDigits 10 (n / 100) ++ [Nat.digitChar (n / 10 % 10), Nat.digitChar (n % 10)] := by
        rw [toDigits_step n (by omega), toDigits_step (n / 10) (by omega), Nat.div_div_eq_div_mul]
        simp
      have hq : n / 100 ≠ 0 := by omega
      have hlen : 0 < (Nat.toDigits 10 (n / 100)).length := by
        rw [toDigits_eq, if_neg hq]
        simpa using List.length_pos.mpr (Nat.digits_ne_nil_iff_ne_zero.mpr hq)
      have e2 : (Nat.toDigits 10 (n / 100) ++
          [Nat.digitChar (n / 10 % 10), Nat.digitChar (n % 10)]).length - 2 =
          (Nat.toDigits 10 (n / 100)).length := by simp
      have e3 : ¬ (Nat.toDigits 10 (n / 100) ++
          [Nat.digitChar (n / 10 % 10), Nat.digitChar (n % 10)]).length ≤ 2 := by
        simp only [List.length_append, List.length_cons, List.length_nil]
        omega
      simp only [e1]
      rw [if_neg e3, e2, List.take_left' rfl, List.drop_left' rfl]

namespace JsNum

theorem fin_add_fin (a b : ℚ) : (fin a + fin b : JsNum) = ofRat (a + b) := rfl

theorem fin_mul_fin (a b : ℚ) : (fin a * fin b : JsNum) = ofRat (a * b) := rfl

theorem fin_div_fin (a b : ℚ) (h : b ≠ 0) : (fin a / fin b : JsNum) = ofRat (a / b) := by
  show div (fin a) (fin b) = _
  simp [div, h]

@[simp] theorem le_fin_fin (a b : ℚ) : le (fin a) (fin b) = decide (a ≤ b) := rfl

@[simp] theorem lt_fin_fin (a b : ℚ) : lt (fin a) (fin b) = decide (a < b) := rfl

@[simp] theorem ge_fin_fin (a b : ℚ) : ge (fin a) (fin b) = decide (b ≤ a) := rfl

@[simp] theorem gt_fin_fin (a b : ℚ) : gt (fin a) (fin b) = decide (b < a) := rfl

end JsNum

/-! ## Rounding to the nearest double -/

theorem floor_le_roundHalfEven (x : ℚ) : ⌊x⌋ ≤ roundHalfEven x := by
  unfold roundHalfEven
  split_ifs <;> omega

theorem roundHalfEven_le_floor_add_one (x : ℚ) : roundHalfEven x ≤ ⌊x⌋ + 1 := by
  unfold roundHalfEven
  split_ifs <;> omega

theorem roundHalfEven_intCast (n : ℤ) : roundHalfEven (n : ℚ) = n := by
  unfold roundHalfEven
  rw [Int.floor_intCast]
  simp

theorem roundHalfEven_natCast (n : ℕ) : roundHalfEven (n : ℚ) = n := by
  have := roundHalfEven_intCast (n : ℤ)
  simpa using this

theorem roundHalfEven_sub_le (x : ℚ) : (roundHalfEven x : ℚ) - x ≤ 1 / 2 := by
  have h1 := Int.floor_le x
  have h2 := Int.lt_floor_add_one x
  unfold roundHalfEven
  split_ifs <;> push_cast <;> linarith

theorem sub_roundHalfEven_le (x : ℚ) : x - (roundHalfEven x : ℚ) ≤ 1 / 2 := by
  have h1 := Int.floor_le x
  have h2 := Int.lt_floor_add_one x
  unfold roundHalfEven
  split_ifs <;> push_cast <;> linarith

theorem roundHalfEven_mono {x y : ℚ} (h : x ≤ y) : roundHalfEven x ≤ roundHalfEven y := by
  have hf : ⌊x⌋ ≤ ⌊y⌋ := Int.floor_mono h
  rcases lt_or_eq_of_le hf with hlt | heq
  · have h1 := roundHalfEven_le_floor_add_one x
    have h2 := floor_le_roundHalfEven y
    omega
  · unfold roundHalfEven
    rw [← heq]
    split_ifs <;> first | omega | (exfalso; linarith)

theorem roundHalfEven_nonneg {x : ℚ} (h : 0 ≤ x) : 0 ≤ roundHalfEven x := by
  have := roundHalfEven_mono h
  rwa [show ((0 : ℚ)) = ((0 : ℤ) : ℚ) by simp, roundHalfEven_intCast] at this

theorem floorLog2From_spec (fuel : Nat) : ∀ n : Nat, n ≤ fuel → n ≠ 0 →
    2 ^ floorLog2From fuel n ≤ n ∧ n < 2 ^ (floorLog2From fuel n + 1) := by
  induction fuel with
  | zero => intro n h h0; omega
  | succ fuel ih =>
    intro n h h0
    unfold floorLog2From
    by_cases h2 : n < 2
    · rw [if_pos h2]
      constructor <;> simp <;> omega
    · rw [if_neg h2]
      obtain ⟨l, u⟩ := ih (n / 2) (by omega) (by omega)
      constructor
      · rw [pow_succ]; omega
      · rw [pow_succ]; omega

theorem floorLog2_spec (n : Nat) (h : n ≠ 0) :
    2 ^ floorLog2 n ≤ n ∧ n < 2 ^ (floorLog2 n + 1) :=
  floorLog2From_spec n n le_rfl h
theorem two_zpow_pos (e : ℤ) : (0 : ℚ) < (2 : ℚ) ^ e := zpow_pos (by norm_num) e

theorem abs_eq_natAbs_div_den (q : ℚ) : |q| = (q.num.natAbs : ℚ) / (q.den : ℚ) := by
  have hd : (0 : ℚ) < q.den := by exact_mod_cast q.den_pos
  conv_lhs => rw [← Rat.num_div_den q]
  rw [abs_div, abs_of_pos hd, Nat.cast_natAbs]
  simp

/-- The binary exponent brackets the absolute value. -/
theorem binaryExponent_spec (q : ℚ) (hq : q ≠ 0) :
    (2 : ℚ) ^ binaryExponent q ≤ |q| ∧ |q| < (2 : ℚ) ^ (binaryExponent q + 1) := by
  have h2 : (2 : ℚ) ≠ 0 := by norm_num
  have hn0 : q.num.natAbs ≠ 0 := by
    simpa [Int.natAbs_eq_zero] using hq
  have hd0 : q.den ≠ 0 := q.den_nz
  obtain ⟨nl, nu⟩ := floorLog2_spec _ hn0
  obtain ⟨dl, du⟩ := floorLog2_spec _ hd0
  have hd : (0 : ℚ) < q.den := by exact_mod_cast q.den_pos
  have hnl : ((2 : ℚ) ^ floorLog2 q.num.natAbs) ≤ (q.num.natAbs : ℚ) := by exact_mod_cast nl
  have hnu : (q.num.natAbs : ℚ) < (2 : ℚ) ^ (floorLog2 q.num.natAbs + 1) := by exact_mod_cast nu
  have hdl : ((2 : ℚ) ^ floorLog2 q.den) ≤ (q.den : ℚ) := by exact_mod_cast dl
  have hdu : (q.den : ℚ) < (2 : ℚ) ^ (floorLog2 q.den + 1) := by exact_mod_cast du
  have habs := abs_eq_natAbs_div_den q
  -- the two outer bounds
  have hlow : (2 : ℚ) ^ ((floorLog2 q.num.natAbs : ℤ) - (floorLog2 q.den : ℤ) - 1) ≤ |q| := by
    rw [habs, le_div_iff₀ hd]
    have e1 : (2 : ℚ) ^ ((floorLog2 q.num.natAbs : ℤ) - (floorLog2 q.den : ℤ) - 1) =
        (2 : ℚ) ^ floorLog2 q.num.natAbs / (2 : ℚ) ^ (floorLog2 q.den + 1) := by
      rw [show ((floorLog2 q.num.natAbs : ℤ) - (floorLog2 q.den : ℤ) - 1) =
        (floorLog2 q.num.natAbs : ℤ) - ((floorLog2 q.den + 1 : ℕ) : ℤ) by push_cast; ring,
        zpow_sub₀ h2, zpow_natCast, zpow_natCast]
    rw [e1, div_mul_eq_mul_div, div_le_iff₀ (by positivity)]
    calc (2 : ℚ) ^ floorLog2 q.num.natAbs * (q.den : ℚ)
        ≤ (q.num.natAbs : ℚ) * (q.den : ℚ) := by
          apply mul_le_mul_of_nonneg_right hnl (le_of_lt hd)
      _ ≤ (q.num.natAbs : ℚ) * (2 : ℚ) ^ (floorLog2 q.den + 1) := by
          apply mul_le_mul_of_nonneg_left (le_of_lt hdu) (by positivity)
  have hup : |q| < (2 : ℚ) ^ ((floorLog2 q.num.natAbs : ℤ) - (floorLog2 q.den : ℤ) + 1) := by
    rw [habs, div_lt_iff₀ hd]
    have e1 : (2 : ℚ) ^ ((floorLog2 q.num.natAbs : ℤ) - (floorLog2 q.den : ℤ) + 1) =
        (2 : ℚ) ^ (floorLog2 q.num.natAbs + 1) / (2 : ℚ) ^ floorLog2 q.den := by
      rw [show ((floorLog2 q.num.natAbs : ℤ) - (floorLog2 q.den : ℤ) + 1) =
        ((floorLog2 q.num.natAbs + 1 : ℕ) : ℤ) - (floorLog2 q.den : ℤ) by push_cast; ring,
        zpow_sub₀ h2, zpow_natCast, zpow_natCast]
    rw [e1, div_mul_eq_mul_div, lt_div_iff₀ (by positivity)]
    calc (q.num.natAbs : ℚ) * (2 : ℚ) ^ floorLog2 q.den
        ≤ (q.num.natAbs : ℚ) * (q.den : ℚ) := by
          apply mul_le_mul_of_nonneg_left hdl (by positivity)
      _ < (2 : ℚ) ^ (floorLog2 q.num.natAbs + 1) * (q.den : ℚ) := by
          apply mul_lt_mul_of_pos_right hnu hd
  unfold binaryExponent
  split_ifs with h
  · exact ⟨h, hup⟩
  · refine ⟨hlow, ?_⟩
    rw [sub_add_cancel]
    exact not_le.mp h

/-- The binary exponent is the only exponent that brackets the absolute value. -/
theorem binaryExponent_unique (q : ℚ) (hq : q ≠ 0) (a : ℤ)
    (h1 : (2 : ℚ) ^ a ≤ |q|) (h2 : |q| < (2 : ℚ) ^ (a + 1)) : binaryExponent q = a := by
  obtain ⟨l, u⟩ := binaryExponent_spec q hq
  have hlt1 : (2 : ℚ) ^ a < (2 : ℚ) ^ (binaryExponent q + 1) := lt_of_le_of_lt h1 u
  have hlt2 : (2 : ℚ) ^ binaryExponent q < (2 : ℚ) ^ (a + 1) := lt_of_le_of_lt l h2
  rw [zpow_lt_zpow_iff_right₀ (by norm_num : (1 : ℚ) < 2)] at hlt1 hlt2
  omega

theorem binaryExponent_lt_of_lt (q : ℚ) (hq : q ≠ 0) (a : ℤ) (h : |q| < (2 : ℚ) ^ a) :
    binaryExponent q < a := by
  obtain ⟨l, _⟩ := binaryExponent_spec q hq
  have := lt_of_le_of_lt l h
  rwa [zpow_lt_zpow_iff_right₀ (by norm_num : (1 : ℚ) < 2)] at this

theorem le_binaryExponent_of_le (q : ℚ) (hq : q ≠ 0) (a : ℤ) (h : (2 : ℚ) ^ a ≤ |q|) :
    a ≤ binaryExponent q := by
  obtain ⟨_, u⟩ := binaryExponent_spec q hq
  have := lt_of_le_of_lt h u
  rw [zpow_lt_zpow_iff_right₀ (by norm_num : (1 : ℚ) < 2)] at this
  omega

theorem binaryExponent_mono {x y : ℚ} (hx : 0 < x) (h : x ≤ y) :
    binaryExponent x ≤ binaryExponent y := by
  have hy : 0 < y := lt_of_lt_of_le hx h
  obtain ⟨l, _⟩ := binaryExponent_spec x (ne_of_gt hx)
  apply le_binaryExponent_of_le y (ne_of_gt hy)
  rw [abs_of_pos hx] at l
  rw [abs_of_pos hy]
  exact le_trans l h

theorem quantum_pos (q : ℚ) : 0 < quantum q := two_zpow_pos _

/-- Below `2 ^ (k + 1)`, in the normal range, the spacing is at most `2 ^ (k - 52)`. -/
theorem quantum_le (q : ℚ) (hq : q ≠ 0) (k : ℤ) (hk : -1022 ≤ k) (h : |q| < (2 : ℚ) ^ (k + 1)) :
    quantum q ≤ (2 : ℚ) ^ (k - 52) := by
  unfold quantum
  apply zpow_le_zpow_right₀ (by norm_num)
  have := binaryExponent_lt_of_lt q hq _ h
  have hmax : max (binaryExponent q) (-1022) ≤ k := max_le (by omega) hk
  omega
theorem nearestDouble_nonneg {x : ℚ} (hx : 0 ≤ x) : 0 ≤ nearestDouble x := by
  unfold nearestDouble
  have h1 : 0 ≤ roundHalfEven (x / quantum x) :=
    roundHalfEven_nonneg (div_nonneg hx (le_of_lt (quantum_pos x)))
  have h2 : (0 : ℚ) ≤ (roundHalfEven (x / quantum x) : ℚ) := by exact_mod_cast h1
  exact mul_nonneg h2 (le_of_lt (quantum_pos x))

/-- The rounding error is at most half the spacing. -/
theorem abs_nearestDouble_sub_le (x : ℚ) : |nearestDouble x - x| ≤ quantum x / 2 := by
  unfold nearestDouble
  have hu := quantum_pos x
  have h1 := roundHalfEven_sub_le (x / quantum x)
  have h2 := sub_roundHalfEven_le (x / quantum x)
  have hx : x = x / quantum x * quantum x := by field_simp
  rw [abs_le]
  constructor
  · have : (x / quantum x - (roundHalfEven (x / quantum x) : ℚ)) * quantum x ≤
        1 / 2 * quantum x := mul_le_mul_of_nonneg_right h2 (le_of_lt hu)
    nlinarith
  · have : ((roundHalfEven (x / quantum x) : ℚ) - x / quantum x) * quantum x ≤
        1 / 2 * quantum x := mul_le_mul_of_nonneg_right h1 (le_of_lt hu)
    nlinarith

/-- The quotient of a positive value by its spacing is below `2 ^ 53`. -/
theorem div_quantum_lt {x : ℚ} (hx : 0 < x) : x / quantum x < (2 : ℚ) ^ (53 : ℕ) := by
  have h2 : (2 : ℚ) ≠ 0 := by norm_num
  obtain ⟨_, u⟩ := binaryExponent_spec x (ne_of_gt hx)
  rw [abs_of_pos hx] at u
  rw [div_lt_iff₀ (quantum_pos x)]
  unfold quantum
  rw [← zpow_natCast, ← zpow_add₀ h2]
  refine lt_of_lt_of_le u (zpow_le_zpow_right₀ (by norm_num) ?_)
  have := le_max_left (binaryExponent x) (-1022)
  push_cast
  omega

theorem roundHalfEven_div_quantum_le {x : ℚ} (hx : 0 < x) :
    roundHalfEven (x / quantum x) ≤ 2 ^ 53 := by
  have h := roundHalfEven_mono (le_of_lt (div_quantum_lt hx))
  have e : ((2 : ℚ) ^ (53 : ℕ)) = (((2 ^ 53 : ℕ) : ℕ) : ℚ) := by norm_num
  rw [e, roundHalfEven_natCast] at h
  exact_mod_cast h

/-- A value `m × 2 ^ z` with `m < 2 ^ 53` and `z` not below `-1074` is a multiple of
its own spacing: rounding leaves it alone. -/
theorem nearestDouble_representable (m : ℕ) (z : ℤ) (hm0 : 0 < m) (hm : m < 2 ^ 53)
    (hz : -1074 ≤ z) : nearestDouble ((m : ℚ) * (2 : ℚ) ^ z) = (m : ℚ) * (2 : ℚ) ^ z := by
  have h2 : (2 : ℚ) ≠ 0 := by norm_num
  have hpos : (0 : ℚ) < (m : ℚ) * (2 : ℚ) ^ z :=
    mul_pos (by exact_mod_cast hm0) (two_zpow_pos z)
  have hlt : |(m : ℚ) * (2 : ℚ) ^ z| < (2 : ℚ) ^ (z + 53) := by
    rw [abs_of_pos hpos, zpow_add₀ h2, mul_comm]
    apply mul_lt_mul_of_pos_left _ (two_zpow_pos z)
    have : (m : ℚ) < ((2 ^ 53 : ℕ) : ℚ) := by exact_mod_cast hm
    have e53 : (2 : ℚ) ^ (53 : ℤ) = ((2 ^ 53 : ℕ) : ℚ) := by norm_num
    rw [e53]
    exact this
  have he := binaryExponent_lt_of_lt _ (ne_of_gt hpos) _ hlt
  have hE : max (binaryExponent ((m : ℚ) * (2 : ℚ) ^ z)) (-1022) - 52 ≤ z := by
    have : max (binaryExponent ((m : ℚ) * (2 : ℚ) ^ z)) (-1022) ≤ z + 52 :=
      max_le (by omega) (by omega)
    omega
  obtain ⟨d, hd⟩ := Int.le.dest hE
  have hq : quantum ((m : ℚ) * (2 : ℚ) ^ z) = (2 : ℚ) ^ (z - (d : ℤ)) := by
    unfold quantum
    congr 1
    omega
  unfold nearestDouble
  rw [hq]
  have hdiv : (m : ℚ) * (2 : ℚ) ^ z / (2 : ℚ) ^ (z - (d : ℤ)) = ((m * 2 ^ d : ℕ) : ℚ) := by
    rw [zpow_sub₀ h2, zpow_natCast]
    push_cast
    field_simp
    ring
  rw [hdiv, roundHalfEven_natCast]
  rw [zpow_sub₀ h2, zpow_natCast]
  push_cast
  field_simp
  ring

/-- Rounding is idempotent on positive values. -/
theorem nearestDouble_idem {x : ℚ} (hx : 0 < x) (hr : nearestDouble x ≠ 0) :
    nearestDouble (nearestDouble x) = nearestDouble x := by
  have h2 : (2 : ℚ) ≠ 0 := by norm_num
  have hn0 : 0 ≤ roundHalfEven (x / quantum x) :=
    roundHalfEven_nonneg (div_nonneg (le_of_lt hx) (le_of_lt (quantum_pos x)))
  obtain ⟨m, hm⟩ := Int.eq_ofNat_of_zero_le hn0
  have hle := roundHalfEven_div_quantum_le hx
  have hval : nearestDouble x =
      (m : ℚ) * (2 : ℚ) ^ (max (binaryExponent x) (-1022) - 52) := by
    unfold nearestDouble
    rw [hm]
    rfl
  have hm0 : 0 < m := by
    rcases Nat.eq_zero_or_pos m with h0 | h0
    · exfalso; apply hr; rw [hval, h0]; simp
    · exact h0
  have hmle : m ≤ 2 ^ 53 := by
    rw [hm] at hle
    exact_mod_cast hle
  have hz : -1074 ≤ max (binaryExponent x) (-1022) - 52 := by
    have := le_max_right (binaryExponent x) (-1022)
    omega
  rw [hval]
  rcases lt_or_eq_of_le hmle with hlt | heq
  · exact nearestDouble_representable m _ hm0 hlt hz
  · have e : (m : ℚ) * (2 : ℚ) ^ (max (binaryExponent x) (-1022) - 52) =
        ((1 : ℕ) : ℚ) * (2 : ℚ) ^ (max (binaryExponent x) (-1022) - 52 + 53) := by
      rw [heq, zpow_add₀ h2]
      push_cast
      have e53 : (2 : ℚ) ^ (53 : ℤ) = (2 : ℚ) ^ (53 : ℕ) := zpow_natCast 2 53
      rw [e53]
      ring
    rw [e]
    exact nearestDouble_representable 1 _ (by norm_num) (by norm_num) (by omega)
/-- Rounding is monotone on positive values. -/
theorem nearestDouble_mono {x y : ℚ} (hx : 0 < x) (h : x ≤ y) :
    nearestDouble x ≤ nearestDouble y := by
  have h2 : (2 : ℚ) ≠ 0 := by norm_num
  have hy : 0 < y := lt_of_lt_of_le hx h
  have he := binaryExponent_mono hx h
  have hE : max (binaryExponent x) (-1022) ≤ max (binaryExponent y) (-1022) :=
    max_le_max he le_rfl
  rcases lt_or_eq_of_le hE with hlt | heq
  · -- the upper value lies in a higher binade
    have hxle : nearestDouble x ≤ (2 : ℚ) ^ (max (binaryExponent x) (-1022) + 1) := by
      unfold nearestDouble
      have h53 : (roundHalfEven (x / quantum x) : ℚ) ≤ (2 : ℚ) ^ (53 : ℤ) := by
        have := roundHalfEven_div_quantum_le hx
        have e53 : (2 : ℚ) ^ (53 : ℤ) = (((2 ^ 53 : ℕ) : ℤ) : ℚ) := by norm_num
        rw [e53]
        exact_mod_cast this
      calc (roundHalfEven (x / quantum x) : ℚ) * quantum x
          ≤ (2 : ℚ) ^ (53 : ℤ) * quantum x :=
            mul_le_mul_of_nonneg_right h53 (le_of_lt (quantum_pos x))
        _ = (2 : ℚ) ^ (max (binaryExponent x) (-1022) + 1) := by
            unfold quantum
            rw [← zpow_add₀ h2]
            congr 1
            ring
    have hyE : binaryExponent y = max (binaryExponent y) (-1022) := by
      have := le_max_right (binaryExponent x) (-1022)
      rcases le_total (binaryExponent y) (-1022) with hc | hc
      · rw [max_eq_right hc] at hlt; omega
      · rw [max_eq_left hc]
    have hyge : (2 : ℚ) ^ (max (binaryExponent y) (-1022)) ≤ nearestDouble y := by
      obtain ⟨l, _⟩ := binaryExponent_spec y (ne_of_gt hy)
      rw [abs_of_pos hy, hyE] at l
      have hq : (2 : ℚ) ^ (52 : ℤ) ≤ y / quantum y := by
        rw [le_div_iff₀ (quantum_pos y)]
        unfold quantum
        rw [← zpow_add₀ h2]
        have : (52 : ℤ) + (max (binaryExponent y) (-1022) - 52) =
            max (binaryExponent y) (-1022) := by ring
        rw [this]
        exact l
      have e52 : (2 : ℚ) ^ (52 : ℤ) = (((2 ^ 52 : ℕ) : ℕ) : ℚ) := by norm_num
      have hr := roundHalfEven_mono hq
      rw [e52, roundHalfEven_natCast] at hr
      have hr' : (2 : ℚ) ^ (52 : ℤ) ≤ (roundHalfEven (y / quantum y) : ℚ) := by
        rw [e52]
        exact_mod_cast hr
      unfold nearestDouble
      calc (2 : ℚ) ^ (max (binaryExponent y) (-1022))
          = (2 : ℚ) ^ (52 : ℤ) * quantum y := by
            unfold quantum
            rw [← zpow_add₀ h2]
            congr 1
            ring
        _ ≤ (roundHalfEven (y / quantum y) : ℚ) * quantum y :=
            mul_le_mul_of_nonneg_right hr' (le_of_lt (quantum_pos y))
    have hmid : (2 : ℚ) ^ (max (binaryExponent x) (-1022) + 1) ≤
        (2 : ℚ) ^ (max (binaryExponent y) (-1022)) :=
      zpow_le_zpow_right₀ (by norm_num) (by omega)
    exact le_trans hxle (le_trans hmid hyge)
  · -- the same spacing
    have hq : quantum x = quantum y := by
      unfold quantum
      rw [heq]
    unfold nearestDouble
    rw [hq]
    have hr : roundHalfEven (x / quantum y) ≤ roundHalfEven (y / quantum y) :=
      roundHalfEven_mono (div_le_div_of_nonneg_right h (le_of_lt (quantum_pos y)))
    have hr' : (roundHalfEven (x / quantum y) : ℚ) ≤ (roundHalfEven (y / quantum y) : ℚ) := by
      exact_mod_cast hr
    exact mul_le_mul_of_nonneg_right hr' (le_of_lt (quantum_pos y))

namespace JsNum

theorem ofRat_zero : ofRat 0 = fin 0 := by
  unfold ofRat
  simp

/-- Rounding of a positive value: the nearest double, or `Infinity`. -/
theorem ofRat_of_pos {x : ℚ} (hx : 0 < x) :
    ofRat x = if (2 : ℚ) ^ 1024 ≤ nearestDouble x then posInf else fin (nearestDouble x) := by
  unfold ofRat
  rw [if_neg (ne_of_gt hx)]
  split_ifs with h1 h2
  · rfl
  · exfalso
    have := nearestDouble_nonneg (le_of_lt hx)
    have hp : (0 : ℚ) < (2 : ℚ) ^ 1024 := by positivity
    linarith
  · rfl

/-- A finite result of rounding a value that is not negative is the nearest double, not
negative and below `2 ^ 1024`. -/
theorem ofRat_eq_fin {x q : ℚ} (hx : 0 ≤ x) (h : ofRat x = fin q) :
    q = nearestDouble x ∧ 0 ≤ q ∧ q < (2 : ℚ) ^ 1024 := by
  rcases eq_or_lt_of_le hx with h0 | hpos
  · subst h0
    rw [ofRat_zero] at h
    injection h with h
    subst h
    refine ⟨?_, le_rfl, by positivity⟩
    unfold nearestDouble
    simp [roundHalfEven]
  · rw [ofRat_of_pos hpos] at h
    split_ifs at h with hc
    injection h with h
    subst h
    exact ⟨rfl, nearestDouble_nonneg hx, not_le.mp hc⟩

/-- A double converts to itself: rounding is idempotent. -/
theorem ofRat_idem {x q : ℚ} (hx : 0 ≤ x) (h : ofRat x = fin q) : ofRat q = fin q := by
  obtain ⟨hq, hq0, hlt⟩ := ofRat_eq_fin hx h
  rcases eq_or_lt_of_le hq0 with h0 | hpos
  · rw [← h0]; exact ofRat_zero
  · have hxpos : 0 < x := by
      rcases eq_or_lt_of_le hx with hx0 | hx0
      · subst hx0
        rw [ofRat_zero] at h
        injection h with h
        rw [← h] at hpos
        exact absurd hpos (lt_irrefl _)
      · exact hx0
    have hid : nearestDouble q = q := by
      rw [hq]
      exact nearestDouble_idem hxpos (by rw [← hq]; exact ne_of_gt hpos)
    rw [ofRat_of_pos hpos, hid, if_neg (not_le.mpr hlt)]

/-- Rounding is monotone on values that are not negative. -/
theorem ofRat_mono {x y b : ℚ} (hx : 0 ≤ x) (hxy : x ≤ y) (h : ofRat y = fin b) :
    ∃ a, ofRat x = fin a ∧ 0 ≤ a ∧ a ≤ b := by
  obtain ⟨hb, hb0, hblt⟩ := ofRat_eq_fin (le_trans hx hxy) h
  rcases eq_or_lt_of_le hx with h0 | hpos
  · subst h0
    exact ⟨0, ofRat_zero, le_rfl, hb0⟩
  · have hm := nearestDouble_mono hpos hxy
    rw [← hb] at hm
    refine ⟨nearestDouble x, ?_, nearestDouble_nonneg hx, hm⟩
    rw [ofRat_of_pos hpos, if_neg (not_le.mpr (lt_of_le_of_lt hm hblt))]

/-- A natural number below `2 ^ 53` is a double. -/
theorem ofRat_natCast (n : ℕ) (h : n < 2 ^ 53) : ofRat (n : ℚ) = fin (n : ℚ) := by
  rcases Nat.eq_zero_or_pos n with h0 | hpos
  · subst h0; simpa using ofRat_zero
  · have hq : (0 : ℚ) < (n : ℚ) := by exact_mod_cast hpos
    have hrep := nearestDouble_representable n 0 hpos h (by norm_num)
    simp only [zpow_zero, mul_one] at hrep
    rw [ofRat_of_pos hq, hrep]
    have hlt : (n : ℚ) < (2 : ℚ) ^ 1024 := by
      have h1 : (n : ℚ) < ((2 ^ 53 : ℕ) : ℚ) := by exact_mod_cast h
      have h2 : (((2 ^ 53 : ℕ) : ℚ)) ≤ (2 : ℚ) ^ 1024 := by norm_num
      linarith
    rw [if_neg (not_le.mpr hlt)]

end JsNum

/-- The rendering `toFixed(2)` of a value between `0` and `100`. -/
theorem toFixed_two (p : ℚ) (h0 : 0 ≤ p) (h1 : p ≤ 100) :
    ∃ n : ℕ, |p * 100 - n| ≤ 1 / 2 ∧
      toFixed (JsNum.fin p) 2 =
        ⟨Nat.toDigits 10 (n / 100) ++ ['.', Nat.digitChar (n / 10 % 10), Nat.digitChar (n % 10)]⟩ := by
  refine ⟨⌊p * 100 + 1 / 2⌋.toNat, ?_, ?_⟩
  · have hnn : 0 ≤ ⌊p * 100 + 1 / 2⌋ := Int.floor_nonneg.mpr (by positivity)
    have hc : ((⌊p * 100 + 1 / 2⌋.toNat : ℕ) : ℚ) = (⌊p * 100 + 1 / 2⌋ : ℚ) := by
      have := Int.toNat_of_nonneg hnn
      exact_mod_cast congrArg (fun z : ℤ => (z : ℚ)) this
    rw [hc]
    have l1 := Int.floor_le (p * 100 + 1 / 2)
    have l2 := Int.lt_floor_add_one (p * 100 + 1 / 2)
    rw [abs_le]
    constructor <;> linarith
  · unfold toFixed
    have hneg : ¬ p < 0 := not_lt.mpr h0
    have hbig : ¬ ((10 : ℚ) ^ 21 ≤ p) := by
      intro hc
      have : (100 : ℚ) < 10 ^ 21 := by norm_num
      linarith
    simp only [hneg, if_false, hbig, List.nil_append, show (2 : ℕ) ≠ 0 by decide]
    have hp : p * (10 : ℚ) ^ 2 = p * 100 := by norm_num
    rw [hp]
    exact congrArg String.mk (twoDecimals_layout ⌊p * 100 + 1 / 2⌋.toNat)

/-! ## The guards of `handleSubmit` -/

theorem toNat_eq_space (c : Char) : c.toNat = 32 ↔ c = ' ' := by
  constructor
  · intro h
    apply Char.ext
    apply UInt32.ext
    exact h
  · rintro rfl; rfl

theorem isLetterOrSpace_iff (c : Char) : isLetterOrSpace c = true ↔ IsLetter c ∨ c = ' ' := by
  have hA : 'A'.toNat = 65 := rfl
  have hZ : 'Z'.toNat = 90 := rfl
  have ha : 'a'.toNat = 97 := rfl
  have hz : 'z'.toNat = 122 := rfl
  unfold isLetterOrSpace IsLetter
  rw [hA, hZ, ha, hz, ← toNat_eq_space]
  simp [or_assoc]

theorem nameRejected_eq_false (state : State) :
    nameRejected state = false ↔ ValidName state := by
  unfold nameRejected nameRegexTest ValidName
  simp only [Bool.not_eq_false', Bool.and_eq_true, Bool.not_eq_true', List.isEmpty_eq_false,
    List.all_eq_true, isLetterOrSpace_iff]

theorem ageRejected_eq_false (state : State) :
    ageRejected state = false ↔ ValidAge state := by
  unfold ageRejected ValidAge
  cases hx : state.age.toNumber with
  | nan => simp [JsNum.isInteger]
  | posInf => simp [JsNum.isInteger]
  | negInf => simp [JsNum.isInteger]
  | fin q =>
    simp only [JsNum.isInteger, JsNum.le_fin_fin, JsNum.gt_fin_fin, Bool.or_eq_false_iff,
      Bool.not_eq_false', decide_eq_true_eq, decide_eq_false_iff_not, not_le, not_lt,
      JsNum.fin.injEq]
    constructor
    · rintro ⟨⟨hd, hpos⟩, hle⟩
      have hq : (q.num : ℚ) = q := Rat.coe_int_num_of_den_eq_one hd
      refine ⟨q.num, hq.symm, ?_, ?_⟩
      · have : (0 : ℚ) < q.num := by rw [hq]; exact hpos
        have : (0 : ℤ) < q.num := by exact_mod_cast this
        omega
      · have : (q.num : ℚ) ≤ 100 := by rw [hq]; exact hle
        exact_mod_cast this
    · rintro ⟨n, rfl, h1, h2⟩
      refine ⟨⟨?_, ?_⟩, ?_⟩
      · simp
      · have : (0 : ℤ) < n := by omega
        exact_mod_cast this
      · exact_mod_cast h2

theorem marksRejected_eq_false (state : State) :
    marksRejected state = false ↔ ValidMarks state := by
  unfold marksRejected ValidMarks
  simp only [List.any_eq_false, List.mem_map, forall_exists_index, and_imp,
    forall_apply_eq_imp_iff₂, Bool.not_eq_true, Bool.or_eq_false_iff]
  refine forall_congr' fun s => imp_congr_right fun _ => ?_
  cases hx : toNumber s with
  | nan => simp [JsNum.isNaN]
  | posInf => simp [JsNum.isNaN, JsNum.gt, JsNum.lt]
  | negInf => simp [JsNum.isNaN, JsNum.gt, JsNum.lt]
  | fin q => simp [JsNum.isNaN]

theorem mem_dropWhile_of_false {p : Char → Bool} {c : Char} :
    ∀ {l : List Char}, c ∈ l → p c = false → c ∈ l.dropWhile p
  | [], h, _ => by simp at h
  | x :: xs, h, hp => by
    rw [List.dropWhile_cons]
    split
    · rename_i hx
      rcases List.mem_cons.mp h with rfl | h'
      · rw [hp] at hx; cases hx
      · exact mem_dropWhile_of_false h' hp
    · exact h

/-- A character that is not white space survives `trim`. -/
theorem mem_trimChars {c : Char} {cs : List Char} (h : c ∈ cs) (hw : isWhiteSpace c = false) :
    c ∈ trimChars cs := by
  unfold trimChars trimEnd
  rw [List.mem_reverse]
  apply mem_dropWhile_of_false _ hw
  rw [List.mem_reverse]
  exact mem_dropWhile_of_false h hw

theorem handleSubmitActions_spec (state : State) :
    handleSubmitActions state =
      Action.SET_ERROR "" ::
        (if nameRejected state = true then
          [Action.SET_ERROR "Name should only contain letters and spaces."]
        else if ageRejected state = true then
          [Action.SET_ERROR "Age should be a positive integer between 1 and 100."]
        else if marksRejected state = true then
          [Action.SET_ERROR "All marks must be between 0 and 100."]
        else if state.editIndex ≠ none then
          [Action.UPDATE_STUDENT (draftStudent state)]
        else
          [Action.ADD_STUDENT (draftStudent state)]) := rfl

/-- The submit commits exactly when the three guards let the draft through. -/
theorem commits_iff_guards (state : State) :
    Commits state ↔
      nameRejected state = false ∧ ageRejected state = false ∧ marksRejected state = false := by
  unfold Commits
  rw [handleSubmitActions_spec]
  cases h1 : nameRejected state <;> cases h2 : ageRejected state <;>
    cases h3 : marksRejected state <;> by_cases h4 : state.editIndex = none <;>
    simp [h4]

theorem commits_iff (state : State) :
    Commits state ↔ ValidName state ∧ ValidAge state ∧ ValidMarks state := by
  rw [commits_iff_guards, nameRejected_eq_false, ageRejected_eq_false, marksRejected_eq_false]

theorem handleSubmit_name_error (state : State) (h : ¬ ValidName state) :
    handleSubmit state =
      { state with errors := "Name should only contain letters and spaces." } := by
  have h1 : nameRejected state = true := by
    rw [← Bool.not_eq_false]; exact fun hc => h ((nameRejected_eq_false state).mp hc)
  unfold handleSubmit
  rw [handleSubmitActions_spec, if_pos h1]
  rfl

theorem handleSubmit_age_error (state : State) (hn : ValidName state) (h : ¬ ValidAge state) :
    handleSubmit state =
      { state with errors := "Age should be a positive integer between 1 and 100." } := by
  have h1 : ¬ nameRejected state = true := by
    rw [Bool.not_eq_true]; exact (nameRejected_eq_false state).mpr hn
  have h2 : ageRejected state = true := by
    rw [← Bool.not_eq_false]; exact fun hc => h ((ageRejected_eq_false state).mp hc)
  unfold handleSubmit
  rw [handleSubmitActions_spec, if_neg h1, if_pos h2]
  rfl

theorem handleSubmit_marks_error (state : State) (hn : ValidName state) (ha : ValidAge state)
    (h : ¬ ValidMarks state) :
    handleSubmit state = { state with errors := "All marks must be between 0 and 100." } := by
  have h1 : ¬ nameRejected state = true := by
    rw [Bool.not_eq_true]; exact (nameRejected_eq_false state).mpr hn
  have h2 : ¬ ageRejected state = true := by
    rw [Bool.not_eq_true]; exact (ageRejected_eq_false state).mpr ha
  have h3 : marksRejected state = true := by
    rw [← Bool.not_eq_false]; exact fun hc => h ((marksRejected_eq_false state).mp hc)
  unfold handleSubmit
  rw [handleSubmitActions_spec, if_neg h1, if_neg h2, if_pos h3]
  rfl

/-- The state after a submit that passes the three guards. -/
theorem handleSubmit_valid (state : State) (hn : ValidName state) (ha : ValidAge state)
    (hm : ValidMarks state) :
    handleSubmit state =
      reducer { state with errors := "" }
        (if state.editIndex ≠ none then Action.UPDATE_STUDENT (draftStudent state)
         else Action.ADD_STUDENT (draftStudent state)) := by
  have h1 : ¬ nameRejected state = true := by
    rw [Bool.not_eq_true]; exact (nameRejected_eq_false state).mpr hn
  have h2 : ¬ ageRejected state = true := by
    rw [Bool.not_eq_true]; exact (ageRejected_eq_false state).mpr ha
  have h3 : ¬ marksRejected state = true := by
    rw [Bool.not_eq_true]; exact (marksRejected_eq_false state).mpr hm
  unfold handleSubmit
  rw [handleSubmitActions_spec, if_neg h1, if_neg h2, if_neg h3]
  split <;> rfl

theorem map_read_spread (xs : List Slot) : (spread xs).map Slot.read = xs.map Slot.read := by
  unfold spread
  rw [List.map_map]
  apply List.map_congr_left
  intro s _
  cases s <;> rfl

theorem spread_eq_self (xs : List Slot) (h : ∀ s ∈ xs, s ≠ Slot.empty) : spread xs = xs := by
  unfold spread
  conv_rhs => rw [← List.map_id xs]
  apply List.map_congr_left
  intro s hs
  cases s with
  | empty => exact absurd rfl (h _ hs)
  | undefined => rfl
  | record r => rfl

theorem spread_length (xs : List Slot) : (spread xs).length = xs.length := by
  simp [spread]

/-! ## The filtered view -/

theorem includesChars_nil (cs : List Char) : includesChars cs [] = true := by
  cases cs <;> simp [includesChars]

theorem includesChars_self (cs : List Char) : includesChars cs cs = true := by
  cases cs with
  | nil => rfl
  | cons c cs =>
    simp only [includesChars, Bool.or_eq_true]
    exact Or.inl (List.isPrefixOf_iff_prefix.mpr (List.prefix_refl _))

/-- On a list that holds records only, `filteredStudents` is the filter by the two
predicates. -/
theorem filteredStudents_records (state : State) (rs : List Student)
    (h : state.students = rs.map Slot.record) :
    filteredStudents state =
      some (rs.filter fun s =>
        includes (toLowerCase s.name) (toLowerCase state.filterName) &&
          (decide (state.filterDivision = "All") ||
            decide (s.division = state.filterDivision))) := by
  unfold filteredStudents
  rw [h]
  clear h
  induction rs with
  | nil => rfl
  | cons r rs ih =>
    simp only [List.map_cons, List.foldr_cons]
    rw [ih]
    simp only [Option.map_some', List.filter_cons]

/-! ## Digit strings and their values -/

theorem digitValue_digitChar (d : Nat) (h : d < 10) : digitValue (Nat.digitChar d) = d := by
  interval_cases d <;> rfl

theorem isDecimalDigit_digitChar (d : Nat) (h : d < 10) :
    isDecimalDigit (Nat.digitChar d) = true := by
  interval_cases d <;> rfl

theorem foldl_digits_acc (l : List Char) (acc : Nat) :
    l.foldl (fun acc c => acc * 10 + digitValue c) acc =
      acc * 10 ^ l.length + natOfDigits l := by
  unfold natOfDigits
  induction l generalizing acc with
  | nil => simp
  | cons c cs ih =>
    simp only [List.foldl_cons, List.length_cons]
    rw [ih, ih (0 * 10 + digitValue c)]
    ring

theorem natOfDigits_append (a b : List Char) :
    natOfDigits (a ++ b) = natOfDigits a * 10 ^ b.length + natOfDigits b := by
  show (a ++ b).foldl _ 0 = _
  rw [List.foldl_append, foldl_digits_acc]
  rfl

theorem natOfDigits_replicate_zero (m : Nat) : natOfDigits (List.replicate m '0') = 0 := by
  induction m with
  | zero => rfl
  | succ m ih =>
    rw [List.replicate_succ', natOfDigits_append, ih]
    rfl

theorem natOfDigits_zeros_append (m : Nat) (s : List Char) :
    natOfDigits (List.replicate m '0' ++ s) = natOfDigits s := by
  rw [natOfDigits_append, natOfDigits_replicate_zero]
  simp

theorem natOfDigits_append_zeros (m : Nat) (s : List Char) :
    natOfDigits (s ++ List.replicate m '0') = natOfDigits s * 10 ^ m := by
  rw [natOfDigits_append, natOfDigits_replicate_zero]
  simp

theorem natOfDigits_toDigits (n : Nat) : natOfDigits (Nat.toDigits 10 n) = n := by
  induction n using Nat.strong_induction_on with
  | _ n ih =>
    by_cases h : n < 10
    · rw [toDigits_small n h]
      show 0 * 10 + digitValue (Nat.digitChar n) = n
      rw [digitValue_digitChar n h]
      omega
    · rw [toDigits_step n (by omega), natOfDigits_append, ih (n / 10) (by omega)]
      show n / 10 * 10 ^ 1 + (0 * 10 + digitValue (Nat.digitChar (n % 10))) = n
      rw [digitValue_digitChar _ (by omega)]
      omega

theorem toDigits_all_digits (n : Nat) : ∀ c ∈ Nat.toDigits 10 n, isDecimalDigit c = true := by
  induction n using Nat.strong_induction_on with
  | _ n ih =>
    by_cases h : n < 10
    · rw [toDigits_small n h]
      intro c hc
      rw [List.mem_singleton.mp hc]
      exact isDecimalDigit_digitChar n h
    · rw [toDigits_step n (by omega)]
      intro c hc
      rcases List.mem_append.mp hc with h1 | h1
      · exact ih (n / 10) (by omega) c h1
      · rw [List.mem_singleton.mp h1]
        exact isDecimalDigit_digitChar _ (by omega)

theorem toDigits_ne_nil (n : Nat) : Nat.toDigits 10 n ≠ [] := by
  by_cases h : n < 10
  · rw [toDigits_small n h]; simp
  · rw [toDigits_step n (by omega)]; simp

/-- A digit list is its stripped form followed by its trailing zeros. -/
theorem stripTrailingZeros_append (ds : List Char) :
    ds = stripTrailingZeros ds ++
      List.replicate (ds.length - (stripTrailingZeros ds).length) '0' := by
  unfold stripTrailingZeros
  have hsplit := List.takeWhile_append_dropWhile (fun c => decide (c = '0')) ds.reverse
  have htw : ds.reverse.takeWhile (fun c => decide (c = '0')) =
      List.replicate (ds.reverse.takeWhile (fun c => decide (c = '0'))).length '0' := by
    rw [List.eq_replicate_iff]
    refine ⟨rfl, ?_⟩
    intro b hb
    simpa using List.mem_takeWhile_imp hb
  have hlen : ds.length - (ds.reverse.dropWhile (fun c => decide (c = '0'))).reverse.length =
      (ds.reverse.takeWhile (fun c => decide (c = '0'))).length := by
    have := congrArg List.length hsplit
    simp only [List.length_append, List.length_reverse] at this
    simp only [List.length_reverse]
    omega
  rw [hlen]
  have h2 := congrArg List.reverse hsplit
  rw [List.reverse_append, List.reverse_reverse] at h2
  conv_lhs => rw [← h2]
  rw [htw]
  simp

theorem stripTrailingZeros_subset (ds : List Char) :
    ∀ c ∈ stripTrailingZeros ds, c ∈ ds := by
  intro c hc
  unfold stripTrailingZeros at hc
  rw [List.mem_reverse] at hc
  have := (List.dropWhile_suffix (fun c => decide (c = '0'))).subset hc
  exact List.mem_reverse.mp this

/-! ## Parsing a rendered number -/

theorem takeWhile_digits_stop (a : List Char) (r : List Char)
    (ha : ∀ c ∈ a, isDecimalDigit c = true)
    (hr : ∀ c ∈ r.head?, isDecimalDigit c = false) :
    (a ++ r).takeWhile isDecimalDigit = a := by
  induction a with
  | nil =>
    cases r with
    | nil => rfl
    | cons c cs =>
      have : isDecimalDigit c = false := hr c (by simp)
      simp [List.takeWhile_cons, this]
  | cons x xs ih =>
    have hx : isDecimalDigit x = true := ha x (List.mem_cons_self _ _)
    simp only [List.cons_append, List.takeWhile_cons, hx, if_true]
    rw [ih (fun c hc => ha c (List.mem_cons_of_mem _ hc))]

theorem dropWhile_digits_stop (a : List Char) (r : List Char)
    (ha : ∀ c ∈ a, isDecimalDigit c = true)
    (hr : ∀ c ∈ r.head?, isDecimalDigit c = false) :
    (a ++ r).dropWhile isDecimalDigit = r := by
  induction a with
  | nil =>
    cases r with
    | nil => rfl
    | cons c cs =>
      have : isDecimalDigit c = false := hr c (by simp)
      simp [List.dropWhile_cons, this]
  | cons x xs ih =>
    have hx : isDecimalDigit x = true := ha x (List.mem_cons_self _ _)
    simp only [List.cons_append, List.dropWhile_cons, hx, if_true]
    rw [ih (fun c hc => ha c (List.mem_cons_of_mem _ hc))]

theorem dropWhile_eq_self_of_head (p : Char → Bool) (l : List Char)
    (h : ∀ c ∈ l.head?, p c = false) : l.dropWhile p = l := by
  cases l with
  | nil => rfl
  | cons c cs =>
    have : p c = false := h c (by simp)
    simp [List.dropWhile_cons, this]

/-- A list without white space is left alone by `trim`. -/
theorem trimChars_eq_self (cs : List Char) (h : ∀ c ∈ cs, isWhiteSpace c = false) :
    trimChars cs = cs := by
  unfold trimChars trimEnd
  rw [dropWhile_eq_self_of_head isWhiteSpace cs
    (fun c hc => h c (List.mem_of_mem_head? hc))]
  rw [dropWhile_eq_self_of_head isWhiteSpace cs.reverse
    (fun c hc => h c (List.mem_reverse.mp (List.mem_of_mem_head? hc)))]
  exact List.reverse_reverse cs

theorem IsRenderChar.not_whiteSpace {c : Char} (h : IsRenderChar c) :
    isWhiteSpace c = false := by
  rcases h with h | rfl | rfl | rfl | rfl
  · unfold isDecimalDigit at h
    unfold isWhiteSpace
    simp only [Bool.and_eq_true, decide_eq_true_eq] at h
    simp only [Bool.or_eq_false_iff, Bool.and_eq_false_iff, decide_eq_false_iff_not]
    omega
  all_goals rfl

theorem parseNonDecimal_render (t : List Char) (h : ∀ c ∈ t, IsRenderChar c) :
    parseNonDecimal t = none := by
  unfold parseNonDecimal
  split
  · rename_i c ds
    have hc : IsRenderChar c := h c (by simp)
    have hx : ¬ (c = 'x' ∨ c = 'X') ∧ ¬ (c = 'o' ∨ c = 'O') ∧ ¬ (c = 'b' ∨ c = 'B') := by
      rcases hc with hd | rfl | rfl | rfl | rfl
      · refine ⟨?_, ?_, ?_⟩ <;> rintro (rfl | rfl) <;> exact absurd hd (by decide)
      all_goals decide
    rw [if_neg hx.1, if_neg hx.2.1, if_neg hx.2.2]
  · rfl

theorem parseDecimal_digit_head (c : Char) (cs : List Char) (hc : isDecimalDigit c = true) :
    parseDecimal (c :: cs) = parseUnsignedDecimal (c :: cs) := by
  unfold parseDecimal
  split
  · rename_i h
    injection h with h1 _
    subst h1
    exact absurd hc (by decide)
  · rename_i h
    injection h with h1 _
    subst h1
    exact absurd hc (by decide)
  · rfl

theorem parseExponent_suffix (e : ℤ) : parseExponent (exponentSuffix e) = some e := by
  unfold exponentSuffix parseExponent
  have hne : (Nat.toDigits 10 e.natAbs).isEmpty = false := by
    cases h : Nat.toDigits 10 e.natAbs with
    | nil => exact absurd h (toDigits_ne_nil _)
    | cons _ _ => rfl
  have hall : (Nat.toDigits 10 e.natAbs).all isDecimalDigit = true :=
    List.all_eq_true.mpr (toDigits_all_digits _)
  by_cases he : e < 0
  · simp only [he, if_true, true_or, hne, hall, natOfDigits_toDigits]
    show some (-(e.natAbs : ℤ)) = some e
    rw [Option.some.injEq]
    omega
  · simp only [he, if_false, true_or, hne, hall, natOfDigits_toDigits]
    show some (e.natAbs : ℤ) = some e
    rw [Option.some.injEq]
    omega

theorem parseUnsignedDecimal_plain (ip r : List Char) (hne : ip ≠ [])
    (hip : ∀ c ∈ ip, isDecimalDigit c = true) (hr : ∀ c ∈ r.head?, c = 'e') :
    parseUnsignedDecimal (ip ++ r) =
      match parseExponent r with
      | none => JsNum.nan
      | some e => JsNum.ofRat ((natOfDigits ip : ℚ) * (10 : ℚ) ^ e) := by
  have hr' : ∀ c ∈ r.head?, isDecimalDigit c = false := by
    intro c hc; rw [hr c hc]; rfl
  have hinf : ip ++ r ≠ "Infinity".data := by
    intro h
    cases ip with
    | nil => exact hne rfl
    | cons c cs =>
      have hc := hip c (List.mem_cons_self _ _)
      have : c = 'I' := by
        have := congrArg List.head? h
        simpa using this
      rw [this] at hc
      exact absurd hc (by decide)
  unfold parseUnsignedDecimal
  rw [if_neg hinf]
  simp only [takeWhile_digits_stop ip r hip hr', dropWhile_digits_stop ip r hip hr']
  have hshape : r = [] ∨ ∃ cs, r = 'e' :: cs := by
    cases r with
    | nil => exact Or.inl rfl
    | cons c cs => exact Or.inr ⟨cs, by rw [hr c (by simp)]⟩
  have hemp : (ip.isEmpty && ([] : List Char).isEmpty) = false := by
    cases ip with
    | nil => exact absurd rfl hne
    | cons _ _ => rfl
  rcases hshape with rfl | ⟨cs, rfl⟩
  · simp [hemp]
    exact fun h => absurd h hne
  · simp [hemp]
    exact fun h => absurd h hne

theorem parseUnsignedDecimal_point (ip fp r : List Char) (hne : ip ++ fp ≠ [])
    (hip : ∀ c ∈ ip, isDecimalDigit c = true) (hfp : ∀ c ∈ fp, isDecimalDigit c = true)
    (hr : ∀ c ∈ r.head?, c = 'e') :
    parseUnsignedDecimal (ip ++ '.' :: (fp ++ r)) =
      match parseExponent r with
      | none => JsNum.nan
      | some e =>
        JsNum.ofRat ((natOfDigits (ip ++ fp) : ℚ) / (10 : ℚ) ^ fp.length * (10 : ℚ) ^ e) := by
  have hr' : ∀ c ∈ r.head?, isDecimalDigit c = false := by
    intro c hc; rw [hr c hc]; rfl
  have hdot : ∀ c ∈ ('.' :: (fp ++ r)).head?, isDecimalDigit c = false := by
    intro c hc
    simp only [List.head?_cons, Option.mem_def, Option.some.injEq] at hc
    rw [← hc]; rfl
  have hinf : ip ++ '.' :: (fp ++ r) ≠ "Infinity".data := by
    intro h
    have : '.' ∈ "Infinity".data := by rw [← h]; simp
    exact absurd this (by decide)
  unfold parseUnsignedDecimal
  rw [if_neg hinf]
  simp only [takeWhile_digits_stop ip _ hip hdot, dropWhile_digits_stop ip _ hip hdot,
    takeWhile_digits_stop fp r hfp hr', dropWhile_digits_stop fp r hfp hr']
  have hemp : (ip.isEmpty && fp.isEmpty) = false := by
    cases ip with
    | nil =>
      cases fp with
      | nil => exact absurd rfl hne
      | cons _ _ => rfl
    | cons _ _ => rfl
  rw [hemp]
  rfl

theorem toNumber_render (c : Char) (cs : List Char) (hc : isDecimalDigit c = true)
    (hall : ∀ x ∈ c :: cs, IsRenderChar x) :
    toNumber ⟨c :: cs⟩ = parseUnsignedDecimal (c :: cs) := by
  unfold toNumber
  simp only
  rw [trimChars_eq_self (c :: cs) (fun x hx => (hall x hx).not_whiteSpace)]
  simp only [List.isEmpty_cons, Bool.false_eq_true, if_false]
  rw [parseNonDecimal_render _ hall, parseDecimal_digit_head c cs hc]

theorem isRenderChar_of_digit {c : Char} (h : isDecimalDigit c = true) : IsRenderChar c :=
  Or.inl h

theorem isRenderChar_exponentSuffix (e : ℤ) : ∀ c ∈ exponentSuffix e, IsRenderChar c := by
  intro c hc
  unfold exponentSuffix at hc
  rcases List.mem_cons.mp hc with rfl | hc
  · exact Or.inr (Or.inr (Or.inl rfl))
  · rcases List.mem_cons.mp hc with rfl | hc
    · by_cases he : e < 0
      · simp only [he, if_true]; exact Or.inr (Or.inr (Or.inr (Or.inr rfl)))
      · simp only [he, if_false]; exact Or.inr (Or.inr (Or.inr (Or.inl rfl)))
    · exact Or.inl (toDigits_all_digits _ c hc)

theorem exponentSuffix_head (e : ℤ) : ∀ c ∈ (exponentSuffix e).head?, c = 'e' := by
  intro c hc
  unfold exponentSuffix at hc
  simpa using hc.symm

theorem toNumber_render_head (t : List Char)
    (hh : ∃ c, t.head? = some c ∧ isDecimalDigit c = true)
    (hall : ∀ x ∈ t, IsRenderChar x) :
    toNumber ⟨t⟩ = parseUnsignedDecimal t := by
  obtain ⟨c, hc, hd⟩ := hh
  cases t with
  | nil => simp at hc
  | cons x xs =>
    simp only [List.head?_cons, Option.some.injEq] at hc
    subst hc
    exact toNumber_render x xs hd hall

/-- Reading back a rendered number: the digits `ds` rendered with the decimal exponent
`n` convert to the digits' value times `10 ^ (n - k)`, `k` the number of digits. -/
theorem toNumber_renderDigits (ds : List Char) (n : ℤ) (hne : ds ≠ [])
    (hds : ∀ c ∈ ds, isDecimalDigit c = true) :
    toNumber ⟨renderDigits ds n⟩ =
      JsNum.ofRat ((natOfDigits ds : ℚ) * (10 : ℚ) ^ (n - ds.length)) := by
  obtain ⟨d, ds', hcons⟩ := List.exists_cons_of_ne_nil hne
  have hd : isDecimalDigit d = true := hds d (by rw [hcons]; exact List.mem_cons_self _ _)
  have hhead : ds.head? = some d := by rw [hcons]; rfl
  have hten : (10 : ℚ) ≠ 0 := by norm_num
  have hrs : ∀ x ∈ ds, IsRenderChar x := fun x hx => Or.inl (hds x hx)
  unfold renderDigits
  simp only
  split_ifs with h1 h2 h3 h4
  · -- the digits followed by zeros
    obtain ⟨m, hm⟩ := Int.le.dest h1.1
    have hn : n - (ds.length : ℤ) = (m : ℤ) := by omega
    rw [hn, Int.toNat_natCast]
    have hdig : ∀ c ∈ ds ++ List.replicate m '0', isDecimalDigit c = true := by
      intro x hx
      rcases List.mem_append.mp hx with hx | hx
      · exact hds x hx
      · rw [(List.mem_replicate.mp hx).2]; rfl
    rw [toNumber_render_head _ ⟨d, by rw [hcons]; rfl, hd⟩ (fun x hx => Or.inl (hdig x hx))]
    have := parseUnsignedDecimal_plain (ds ++ List.replicate m '0') [] (by simp [hne]) hdig
      (by simp)
    rw [List.append_nil] at this
    rw [this]
    simp only [parseExponent, natOfDigits_append_zeros]
    congr 1
    rw [zpow_natCast]
    push_cast
    ring
  · -- a point inside the digits
    have hlt : n < (ds.length : ℤ) := by omega
    obtain ⟨m, hm⟩ := Int.eq_ofNat_of_zero_le (le_of_lt h2.1)
    subst hm
    have hm1 : 0 < m := by omega
    have hmk : m < ds.length := by omega
    rw [Int.toNat_natCast]
    have hall : ∀ x ∈ ds.take m ++ '.' :: ds.drop m, IsRenderChar x := by
      intro x hx
      rcases List.mem_append.mp hx with hx | hx
      · exact hrs x (List.mem_of_mem_take hx)
      · rcases List.mem_cons.mp hx with rfl | hx
        · exact Or.inr (Or.inl rfl)
        · exact hrs x (List.mem_of_mem_drop hx)
    have hh : (ds.take m ++ '.' :: ds.drop m).head? = some d := by
      obtain ⟨m', rfl⟩ := Nat.exists_eq_succ_of_ne_zero (by omega : m ≠ 0)
      rw [hcons]; rfl
    rw [toNumber_render_head _ ⟨d, hh, hd⟩ hall]
    have := parseUnsignedDecimal_point (ds.take m) (ds.drop m) []
      (by rw [List.take_append_drop]; exact hne)
      (fun c hc => hds c (List.mem_of_mem_take hc))
      (fun c hc => hds c (List.mem_of_mem_drop hc)) (by simp)
    rw [List.append_nil] at this
    rw [this]
    simp only [parseExponent, List.take_append_drop, List.length_drop]
    congr 1
    have hk : ((m : ℤ) - (ds.length : ℤ)) = -((ds.length - m : ℕ) : ℤ) := by omega
    rw [hk, zpow_neg, zpow_natCast]
    simp [div_eq_mul_inv]
  · -- zeros between the point and the digits
    obtain ⟨m, hm⟩ := Int.exists_eq_neg_ofNat h3.2
    subst hm
    rw [neg_neg, Int.toNat_natCast]
    have hdig : ∀ c ∈ List.replicate m '0' ++ ds, isDecimalDigit c = true := by
      intro x hx
      rcases List.mem_append.mp hx with hx | hx
      · rw [(List.mem_replicate.mp hx).2]; rfl
      · exact hds x hx
    have hall : ∀ x ∈ '0' :: '.' :: (List.replicate m '0' ++ ds), IsRenderChar x := by
      intro x hx
      rcases List.mem_cons.mp hx with rfl | hx
      · exact Or.inl rfl
      · rcases List.mem_cons.mp hx with rfl | hx
        · exact Or.inr (Or.inl rfl)
        · exact Or.inl (hdig x hx)
    rw [toNumber_render_head ('0' :: '.' :: (List.replicate m '0' ++ ds)) ⟨'0', rfl, rfl⟩ hall]
    have := parseUnsignedDecimal_point ['0'] (List.replicate m '0' ++ ds) []
      (by simp) (by intro c hc; rw [List.mem_singleton.mp hc]; rfl) hdig (by simp)
    rw [List.append_nil] at this
    rw [show '0' :: '.' :: (List.replicate m '0' ++ ds) =
      ['0'] ++ '.' :: (List.replicate m '0' ++ ds) from rfl, this]
    have hval : natOfDigits (['0'] ++ (List.replicate m '0' ++ ds)) = natOfDigits ds := by
      rw [show ['0'] ++ (List.replicate m '0' ++ ds) = List.replicate (m + 1) '0' ++ ds by
        rw [List.replicate_succ]; rfl]
      exact natOfDigits_zeros_append _ _
    simp only [parseExponent, hval, List.length_append, List.length_replicate]
    congr 1
    have hk : (-(m : ℤ) - (ds.length : ℤ)) = -((m + ds.length : ℕ) : ℤ) := by
      push_cast; ring
    rw [hk, zpow_neg, zpow_natCast]
    simp [div_eq_mul_inv]
  · -- one digit and an exponent
    have hall : ∀ x ∈ ds ++ exponentSuffix (n - 1), IsRenderChar x := by
      intro x hx
      rcases List.mem_append.mp hx with hx | hx
      · exact hrs x hx
      · exact isRenderChar_exponentSuffix _ x hx
    rw [toNumber_render_head _ ⟨d, by rw [hcons]; rfl, hd⟩ hall]
    rw [parseUnsignedDecimal_plain ds _ hne hds (exponentSuffix_head _),
      parseExponent_suffix]
    simp only [h4]
    norm_num
  · -- several digits and an exponent
    have hall : ∀ x ∈ ds.take 1 ++ '.' :: (ds.drop 1 ++ exponentSuffix (n - 1)),
        IsRenderChar x := by
      intro x hx
      rcases List.mem_append.mp hx with hx | hx
      · exact hrs x (List.mem_of_mem_take hx)
      · rcases List.mem_cons.mp hx with rfl | hx
        · exact Or.inr (Or.inl rfl)
        · rcases List.mem_append.mp hx with hx | hx
          · exact hrs x (List.mem_of_mem_drop hx)
          · exact isRenderChar_exponentSuffix _ x hx
    rw [toNumber_render_head _ ⟨d, by rw [hcons]; rfl, hd⟩ hall]
    rw [parseUnsignedDecimal_point (ds.take 1) (ds.drop 1) _
      (by rw [List.take_append_drop]; exact hne)
      (fun c hc => hds c (List.mem_of_mem_take hc))
      (fun c hc => hds c (List.mem_of_mem_drop hc)) (exponentSuffix_head _),
      parseExponent_suffix]
    simp only [List.take_append_drop, List.length_drop]
    congr 1
    have hlen : 1 ≤ ds.length := by rw [hcons]; simp
    have hk : n - (ds.length : ℤ) = (n - 1) - ((ds.length - 1 : ℕ) : ℤ) := by omega
    rw [hk, zpow_sub₀ hten (n - 1) ((ds.length - 1 : ℕ) : ℤ), zpow_natCast]
    ring

/-! ## Finite decimals -/

theorem den_mul_ten (q : ℚ) : (q * 10).den = q.den / Nat.gcd 10 q.den := by
  rw [Rat.mul_den]
  have h10n : (10 : ℚ).num = 10 := rfl
  have h10d : (10 : ℚ).den = 1 := rfl
  rw [h10n, h10d, Nat.mul_one, Int.natAbs_mul]
  have hc : Nat.Coprime q.num.natAbs q.den := q.reduced
  rw [Nat.Coprime.gcd_mul_left_cancel _ hc]
  rfl

theorem IsDecimal.mul_ten {q : ℚ} (h : IsDecimal q) : IsDecimal (q * 10) := by
  obtain ⟨m, hm⟩ := h
  refine ⟨m, ?_⟩
  rw [den_mul_ten]
  exact dvd_trans (Nat.div_dvd_of_dvd (Nat.gcd_dvd_right _ _)) hm

theorem IsDecimal.den_mul_ten_lt {q : ℚ} (h : IsDecimal q) (h1 : q.den ≠ 1) :
    (q * 10).den < q.den := by
  obtain ⟨m, hm⟩ := h
  rw [den_mul_ten]
  have hg : Nat.gcd 10 q.den ≠ 1 := by
    intro hc
    have hcop : Nat.Coprime q.den (10 ^ m) := (Nat.Coprime.pow_left m hc).symm
    exact h1 (Nat.Coprime.eq_one_of_dvd hcop hm)
  have hpos : 0 < Nat.gcd 10 q.den := Nat.gcd_pos_of_pos_left _ (by norm_num)
  exact Nat.div_lt_self q.den_pos (by omega)

/-- The search for the decimal places of a finite decimal ends at an integer. -/
theorem decimalPlacesFrom_spec (fuel : Nat) : ∀ (q : ℚ) (j : Nat), IsDecimal q →
    q.den ≤ fuel → ∃ t, decimalPlacesFrom fuel q j = j + t ∧ (q * (10 : ℚ) ^ t).den = 1 := by
  induction fuel with
  | zero =>
    intro q j _ hf
    exact absurd q.den_pos (by omega)
  | succ fuel ih =>
    intro q j hq hf
    unfold decimalPlacesFrom
    by_cases h1 : q.den = 1
    · rw [if_pos h1]
      exact ⟨0, rfl, by simpa using h1⟩
    · rw [if_neg h1]
      have hlt := hq.den_mul_ten_lt h1
      obtain ⟨t, ht, hd⟩ := ih (q * 10) (j + 1) hq.mul_ten (by omega)
      refine ⟨t + 1, by rw [ht]; omega, ?_⟩
      have e : q * (10 : ℚ) ^ (t + 1) = q * 10 * (10 : ℚ) ^ t := by
        rw [pow_succ]; ring
      rw [e]
      exact hd

theorem decimalPlaces_spec (q : ℚ) (hq : IsDecimal q) :
    (q * (10 : ℚ) ^ decimalPlaces q).den = 1 := by
  obtain ⟨t, ht, hd⟩ := decimalPlacesFrom_spec q.den q 0 hq le_rfl
  unfold decimalPlaces
  rw [ht, Nat.zero_add]
  exact hd

theorem isDecimal_of_mul_pow (q : ℚ) (m : ℕ) (z : ℤ) (h : q * (10 : ℚ) ^ m = z) :
    IsDecimal q := by
  refine ⟨m, ?_⟩
  have hq : q = (z : ℚ) / (((10 ^ m : ℕ) : ℤ) : ℚ) := by
    rw [← h]; push_cast; field_simp
  have hd := Rat.den_dvd z ((10 ^ m : ℕ) : ℤ)
  rw [Rat.divInt_eq_div, ← hq] at hd
  exact Int.natCast_dvd_natCast.mp hd

theorem isDecimal_natCast (n : ℕ) : IsDecimal (n : ℚ) :=
  isDecimal_of_mul_pow _ 0 n (by simp)

theorem isDecimal_zero : IsDecimal 0 := isDecimal_natCast 0

theorem IsDecimal.neg {q : ℚ} (h : IsDecimal q) : IsDecimal (-q) := by
  obtain ⟨m, hm⟩ := h
  exact ⟨m, by rwa [Rat.neg_den]⟩

theorem isDecimal_scaled (n a : ℕ) (e : ℤ) :
    IsDecimal ((n : ℚ) / (10 : ℚ) ^ a * (10 : ℚ) ^ e) := by
  have hten : (10 : ℚ) ≠ 0 := by norm_num
  by_cases he : 0 ≤ e
  · obtain ⟨k, rfl⟩ := Int.eq_ofNat_of_zero_le he
    apply isDecimal_of_mul_pow _ a ((n * 10 ^ k : ℕ) : ℤ)
    rw [zpow_natCast]
    push_cast
    field_simp
  · obtain ⟨k, hk⟩ := Int.exists_eq_neg_ofNat (le_of_lt (not_le.mp he))
    subst hk
    apply isDecimal_of_mul_pow _ (a + k) (n : ℤ)
    rw [zpow_neg, zpow_natCast, pow_add]
    push_cast
    field_simp

theorem isDecimal_two_zpow_mul (n k : ℤ) : IsDecimal ((n : ℚ) * (2 : ℚ) ^ k) := by
  have h2 : (2 : ℚ) ≠ 0 := by norm_num
  rcases le_total 0 k with hk | hk
  · obtain ⟨j, rfl⟩ := Int.eq_ofNat_of_zero_le hk
    apply isDecimal_of_mul_pow _ 0 (n * 2 ^ j)
    rw [zpow_natCast]
    push_cast
    ring
  · obtain ⟨j, rfl⟩ := Int.exists_eq_neg_ofNat hk
    apply isDecimal_of_mul_pow _ j (n * 5 ^ j)
    rw [zpow_neg, zpow_natCast]
    push_cast
    have h10 : (10 : ℚ) ^ j = (2 : ℚ) ^ j * (5 : ℚ) ^ j := by
      rw [← mul_pow]; norm_num
    rw [h10]
    field_simp
    ring

theorem isDecimal_nearestDouble (x : ℚ) : IsDecimal (nearestDouble x) :=
  isDecimal_two_zpow_mul _ _

/-- Every double is a finite decimal. -/
theorem ofRat_decimal (x q : ℚ) (h : JsNum.ofRat x = JsNum.fin q) : IsDecimal q := by
  unfold JsNum.ofRat at h
  split_ifs at h
  · injection h with h
    rw [← h]
    exact isDecimal_zero
  · injection h with h
    rw [← h]
    exact isDecimal_nearestDouble x

theorem radixValue_decimal (radix : Nat) (cs : List Char) (q : ℚ)
    (h : radixValue radix cs = JsNum.fin q) : IsDecimal q := by
  unfold radixValue at h
  split_ifs at h
  split at h
  · exact ofRat_decimal _ _ h
  · cases h

theorem parseNonDecimal_decimal (t : List Char) (q : ℚ)
    (h : parseNonDecimal t = some (JsNum.fin q)) : IsDecimal q := by
  unfold parseNonDecimal at h
  split at h
  · split_ifs at h <;> injection h with h <;> exact radixValue_decimal _ _ _ h
  · cases h

theorem parseUnsignedDecimal_decimal (cs : List Char) (q : ℚ)
    (h : parseUnsignedDecimal cs = JsNum.fin q) : IsDecimal q := by
  unfold parseUnsignedDecimal at h
  simp only at h
  split_ifs at h
  split at h
  · cases h
  · exact ofRat_decimal _ _ h

theorem parseDecimal_decimal (cs : List Char) (q : ℚ)
    (h : parseDecimal cs = JsNum.fin q) : IsDecimal q := by
  unfold parseDecimal at h
  split at h
  · exact parseUnsignedDecimal_decimal _ _ h
  · cases hp : parseUnsignedDecimal _ with
    | fin p =>
      rw [hp] at h
      injection h with h
      rw [← h]
      exact (parseUnsignedDecimal_decimal _ _ hp).neg
    | nan => rw [hp] at h; cases h
    | posInf => rw [hp] at h; cases h
    | negInf => rw [hp] at h; cases h
  · exact parseUnsignedDecimal_decimal _ _ h

/-- Every finite number that the conversion of a string gives is a finite decimal. -/
theorem toNumber_decimal (s : String) (q : ℚ) (h : toNumber s = JsNum.fin q) :
    IsDecimal q := by
  unfold toNumber at h
  simp only at h
  split_ifs at h
  · injection h with h
    rw [← h]
    exact isDecimal_zero
  · split at h
    · rename_i v hv
      rw [h] at hv
      exact parseNonDecimal_decimal _ _ hv
    · exact parseDecimal_decimal _ _ h

/-! ## Doubles -/

theorem radixValue_double (radix : Nat) (cs : List Char) (q : ℚ)
    (h : radixValue radix cs = JsNum.fin q) : JsNum.ofRat q = JsNum.fin q := by
  unfold radixValue at h
  split_ifs at h
  split at h
  · exact JsNum.ofRat_idem (Nat.cast_nonneg _) h
  · cases h

theorem parseUnsignedDecimal_double (cs : List Char) (q : ℚ)
    (h : parseUnsignedDecimal cs = JsNum.fin q) : JsNum.ofRat q = JsNum.fin q ∧ 0 ≤ q := by
  unfold parseUnsignedDecimal at h
  simp only at h
  split_ifs at h
  split at h
  · cases h
  · rename_i e _
    have hv : (0 : ℚ) ≤ (natOfDigits
        (cs.takeWhile isDecimalDigit ++
          match cs.dropWhile isDecimalDigit with
          | '.' :: r => r.takeWhile isDecimalDigit
          | _ => []) : ℚ) /
        (10 : ℚ) ^ (match cs.dropWhile isDecimalDigit with
          | '.' :: r => r.takeWhile isDecimalDigit
          | _ => []).length * (10 : ℚ) ^ e := by positivity
    exact ⟨JsNum.ofRat_idem hv h, (JsNum.ofRat_eq_fin hv h).2.1⟩

/-- A number that the conversion of a string gives, when it is finite and not negative,
is a double: it converts to itself. -/
theorem toNumber_double (s : String) (q : ℚ) (h : toNumber s = JsNum.fin q) (h0 : 0 ≤ q) :
    JsNum.ofRat q = JsNum.fin q := by
  unfold toNumber at h
  simp only at h
  split_ifs at h
  · injection h with h
    rw [← h]
    exact JsNum.ofRat_zero
  · split at h
    · rename_i v hv
      rw [h] at hv
      unfold parseNonDecimal at hv
      split at hv
      · split_ifs at hv <;> injection hv with hv <;> exact radixValue_double _ _ _ hv
      · cases hv
    · unfold parseDecimal at h
      split at h
      · exact (parseUnsignedDecimal_double _ _ h).1
      · cases hp : parseUnsignedDecimal _ with
        | fin p =>
          rw [hp] at h
          injection h with h
          have hp0 := (parseUnsignedDecimal_double _ _ hp).2
          have hq0 : q = 0 := by linarith
          rw [hq0]
          exact JsNum.ofRat_zero
        | nan => rw [hp] at h; cases h
        | posInf => rw [hp] at h; cases h
        | negInf => rw [hp] at h; cases h
      · exact (parseUnsignedDecimal_double _ _ h).1

/-! ## The string of a number and back -/

/-- Reading back the digits of a positive integer `s` rendered with the power `z`. -/
theorem toNumber_renderNat (s : ℕ) (hs : 0 < s) (z : ℤ) :
    toNumber ⟨renderDigits (stripTrailingZeros (Nat.toDigits 10 s))
        (((Nat.toDigits 10 s).length : ℤ) + z)⟩ =
      JsNum.ofRat ((s : ℚ) * (10 : ℚ) ^ z) := by
  have hten : (10 : ℚ) ≠ 0 := by norm_num
  have hsplit := stripTrailingZeros_append (Nat.toDigits 10 s)
  have hval : natOfDigits (stripTrailingZeros (Nat.toDigits 10 s)) *
      10 ^ ((Nat.toDigits 10 s).length - (stripTrailingZeros (Nat.toDigits 10 s)).length) = s := by
    have := natOfDigits_toDigits s
    rw [hsplit, natOfDigits_append_zeros] at this
    exact this
  have hlen : (stripTrailingZeros (Nat.toDigits 10 s)).length ≤ (Nat.toDigits 10 s).length := by
    have := congrArg List.length hsplit
    rw [List.length_append] at this
    omega
  have hne : stripTrailingZeros (Nat.toDigits 10 s) ≠ [] := by
    intro hnil
    rw [hnil] at hval
    simp [natOfDigits] at hval
    omega
  have hds : ∀ c ∈ stripTrailingZeros (Nat.toDigits 10 s), isDecimalDigit c = true :=
    fun c hc => toDigits_all_digits s c (stripTrailingZeros_subset _ c hc)
  rw [toNumber_renderDigits _ _ hne hds]
  congr 1
  generalize stripTrailingZeros (Nat.toDigits 10 s) = t at hval hlen
  generalize (Nat.toDigits 10 s).length = a at hval hlen
  have hk : ((a : ℤ) + z - (t.length : ℤ)) = ((a - t.length : ℕ) : ℤ) + z := by omega
  rw [hk, zpow_add₀ hten, zpow_natCast, ← mul_assoc]
  congr 1
  exact_mod_cast hval

/-- Reading back the full expansion of a positive finite decimal. -/
theorem toNumber_exactToChars (q : ℚ) (hpos : 0 < q) (hq : IsDecimal q) :
    toNumber ⟨exactToChars q⟩ = JsNum.ofRat q := by
  have hten : (10 : ℚ) ≠ 0 := by norm_num
  unfold exactToChars
  simp only
  have hden := decimalPlaces_spec q hq
  have hnum : (((q * (10 : ℚ) ^ decimalPlaces q).num : ℤ) : ℚ) = q * (10 : ℚ) ^ decimalPlaces q :=
    Rat.coe_int_num_of_den_eq_one hden
  have hfloor : ⌊q * (10 : ℚ) ^ decimalPlaces q⌋ = (q * (10 : ℚ) ^ decimalPlaces q).num := by
    rw [← hnum, Int.floor_intCast, hnum]
  have hprod : 0 < q * (10 : ℚ) ^ decimalPlaces q := by positivity
  have hnumpos : 0 < (q * (10 : ℚ) ^ decimalPlaces q).num := Rat.num_pos.mpr hprod
  have hN : ((⌊q * (10 : ℚ) ^ decimalPlaces q⌋.toNat : ℕ) : ℚ) =
      q * (10 : ℚ) ^ decimalPlaces q := by
    rw [hfloor]
    have : (((q * (10 : ℚ) ^ decimalPlaces q).num.toNat : ℕ) : ℤ) =
        (q * (10 : ℚ) ^ decimalPlaces q).num := Int.toNat_of_nonneg (le_of_lt hnumpos)
    have h2 := congrArg (fun z : ℤ => (z : ℚ)) this
    simp only [Int.cast_natCast] at h2
    rw [h2, hnum]
  generalize hNdef : ⌊q * (10 : ℚ) ^ decimalPlaces q⌋.toNat = N at hN
  generalize hjdef : decimalPlaces q = j at hN
  have hNpos : 0 < N := by
    have : (0 : ℚ) < (N : ℚ) := by rw [hN]; positivity
    exact_mod_cast this
  have hform : ((Nat.toDigits 10 N).length : ℤ) - (j : ℤ) =
      ((Nat.toDigits 10 N).length : ℤ) + (-(j : ℤ)) := by ring
  rw [hform, toNumber_renderNat N hNpos]
  congr 1
  rw [hN, zpow_neg, zpow_natCast]
  field_simp

theorem nearestDigits_readsBack (q : ℚ) (z : ℤ) (s : ℕ) (h : nearestDigits q z = some s) :
    readsBack q s z = true := by
  unfold nearestDigits at h
  split_ifs at h with h1 h2 h3 h4 h5 h6 <;> injection h with h <;> subst h
  · exact (Bool.and_eq_true _ _ ▸ h1).1
  · exact (Bool.and_eq_true _ _ ▸ h1).2
  · exact (Bool.and_eq_true _ _ ▸ h1).1
  · exact (Bool.and_eq_true _ _ ▸ h1).2
  · exact h5
  · exact h6

theorem shortestDigits_readsBack (q : ℚ) (n : ℤ) (fuel : Nat) :
    ∀ (k : Nat) (s : ℕ) (z : ℤ), shortestDigits q n fuel k = some (s, z) →
      readsBack q s z = true := by
  induction fuel with
  | zero => intro k s z h; cases h
  | succ fuel ih =>
    intro k s z h
    unfold shortestDigits at h
    split at h
    · rename_i s' hs'
      injection h with h
      injection h with h1 h2
      subst h1 h2
      exact nearestDigits_readsBack q _ _ hs'
    · exact ih _ s z h

/-- Round trip of a number through its string: for a double that is not negative,
`Number(String(x))` is `x`. -/
theorem toNumber_numberToString (q : ℚ) (h0 : 0 ≤ q) (hq : IsDecimal q)
    (hd : JsNum.ofRat q = JsNum.fin q) :
    toNumber (numberToString (JsNum.fin q)) = JsNum.fin q := by
  by_cases hz : q = 0
  · subst hz
    decide!
  · have hpos : 0 < q := lt_of_le_of_ne h0 (Ne.symm hz)
    have hnn : ¬ q < 0 := not_lt.mpr h0
    unfold numberToString
    simp only [hz, hnn, if_false]
    unfold positiveToChars
    split
    · rename_i s z hfound
      have hrb := shortestDigits_readsBack q _ _ _ _ _ hfound
      unfold readsBack at hrb
      have hval : JsNum.ofRat ((s : ℚ) * (10 : ℚ) ^ z) = JsNum.fin q := by
        simpa using hrb
      have hs : 0 < s := by
        rcases Nat.eq_zero_or_pos s with h | h
        · exfalso
          rw [h] at hval
          simp only [Nat.cast_zero, zero_mul, JsNum.ofRat_zero] at hval
          injection hval with hval
          exact hz hval.symm
        · exact h
      rw [toNumber_renderNat s hs z, hval]
    · rw [toNumber_exactToChars q hpos hq, hd]

/-! ## The edit round trip -/

theorem dropWhile_head_false (p : Char → Bool) :
    ∀ (l : List Char) (x : Char) (r : List Char), l.dropWhile p = x :: r → p x = false
  | [], _, _, h => by simp at h
  | y :: ys, x, r, h => by
    rw [List.dropWhile_cons] at h
    split at h
    · exact dropWhile_head_false p ys x r h
    · rename_i hy
      injection h with h1 _
      rw [← h1]
      simpa using hy

theorem trimEnd_idem (a : List Char) : trimEnd (trimEnd a) = trimEnd a := by
  unfold trimEnd
  rw [List.reverse_reverse, List.dropWhile_idempotent]

theorem trimEnd_prefix (a : List Char) : trimEnd a <+: a := by
  unfold trimEnd
  have h := List.dropWhile_suffix (l := a.reverse) isWhiteSpace
  have h2 := List.reverse_prefix.mpr h
  rwa [List.reverse_reverse] at h2

/-- Trimming twice is trimming once. -/
theorem trimChars_idem (cs : List Char) : trimChars (trimChars cs) = trimChars cs := by
  unfold trimChars
  have hhead : ∀ c ∈ (trimEnd (cs.dropWhile isWhiteSpace)).head?, isWhiteSpace c = false := by
    intro c hc
    obtain ⟨t, ht⟩ := trimEnd_prefix (cs.dropWhile isWhiteSpace)
    cases hte : trimEnd (cs.dropWhile isWhiteSpace) with
    | nil => rw [hte] at hc; simp at hc
    | cons x xs =>
      rw [hte] at hc ht
      simp only [List.head?_cons, Option.mem_def, Option.some.injEq] at hc
      subst hc
      exact dropWhile_head_false isWhiteSpace cs x (xs ++ t) ht.symm
  rw [dropWhile_eq_self_of_head isWhiteSpace _ hhead, trimEnd_idem]

theorem trim_idem (s : String) : trim (trim s) = trim s := by
  unfold trim
  simp only [trimChars_idem]

theorem arrayAssign_self (rs : List Student) (i : Nat) (hi : i < rs.length) :
    arrayAssign (spread (rs.map Slot.record)) i (Slot.record (rs.get ⟨i, hi⟩)) =
      rs.map Slot.record := by
  have hsp : spread (rs.map Slot.record) = rs.map Slot.record := by
    apply spread_eq_self
    intro s hs
    obtain ⟨r, _, rfl⟩ := List.mem_map.mp hs
    exact fun h => by cases h
  rw [hsp]
  unfold arrayAssign
  rw [if_pos (by simpa using hi)]
  apply List.ext_getElem
  · simp
  · intro n h1 h2
    by_cases hn : i = n
    · subst hn; simp
    · simp [List.getElem_set, hn]
/-! ## The classification in double arithmetic -/

/-- The result of `calculateResult` from the percentage that the double arithmetic gives. -/
theorem calculateResult_of_percentage (marks : List JsNum) (p : ℚ)
    (h : marks.foldl (fun a b => a + b) (JsNum.fin 0) / JsNum.fin 500 * JsNum.fin 100 =
      JsNum.fin p) :
    calculateResult marks =
      { percentage := toFixed (JsNum.fin p) 2
        division :=
          if 60 ≤ p then "First Division"
          else if 45 ≤ p then "Second Division"
          else if 33 ≤ p then "Third Division"
          else "Fail" } := by
  unfold calculateResult
  simp only [h, JsNum.ge_fin_fin, decide_eq_true_eq]

/-- The total of marks in `[0,100]` is finite, between `0` and a hundred times their
number. -/
theorem total_bounds (l : List ℚ) (hl : ∀ x ∈ l, 0 ≤ x ∧ x ≤ 100) :
    ∀ (K : ℕ) (a : ℚ), 0 ≤ a → a ≤ K → K + 100 * l.length < 2 ^ 53 →
      ∃ t, (l.map JsNum.fin).foldl (fun a b => a + b) (JsNum.fin a) = JsNum.fin t ∧
        0 ≤ t ∧ t ≤ (K : ℚ) + 100 * l.length := by
  induction l with
  | nil =>
    intro K a h0 hK _
    exact ⟨a, rfl, h0, by simpa using hK⟩
  | cons x xs ih =>
    intro K a h0 hK hbig
    have hx := hl x (List.mem_cons_self _ _)
    simp only [List.length_cons] at hbig
    have hnat : JsNum.ofRat (((K + 100 : ℕ) : ℚ)) = JsNum.fin ((K + 100 : ℕ) : ℚ) :=
      JsNum.ofRat_natCast _ (by omega)
    obtain ⟨a', ha', h0', hle'⟩ := JsNum.ofRat_mono (x := a + x) (add_nonneg h0 hx.1)
      (by push_cast; linarith [hx.2]) hnat
    obtain ⟨t, ht, ht0, htle⟩ := ih (fun y hy => hl y (List.mem_cons_of_mem _ hy))
      (K + 100) a' h0' hle' (by omega)
    refine ⟨t, ?_, ht0, ?_⟩
    · simp only [List.map_cons, List.foldl_cons, JsNum.fin_add_fin, ha']
      exact ht
    · simp only [List.length_cons]
      push_cast at htle ⊢
      linarith

/-- From a total in `[0,500]`, the percentage that the double arithmetic gives is
finite, in `[0,100]`, and monotone in the total. -/
theorem percentage_of_total (t : ℚ) (h0 : 0 ≤ t) (h1 : t ≤ 500) :
    ∃ p, JsNum.fin t / JsNum.fin 500 * JsNum.fin 100 = JsNum.fin p ∧ 0 ≤ p ∧ p ≤ 100 ∧
      ∀ t' p', 0 ≤ t' → t' ≤ t →
        JsNum.fin t' / JsNum.fin 500 * JsNum.fin 100 = JsNum.fin p' → p' ≤ p := by
  have h1' : JsNum.ofRat ((1 : ℕ) : ℚ) = JsNum.fin ((1 : ℕ) : ℚ) :=
    JsNum.ofRat_natCast 1 (by norm_num)
  have h100 : JsNum.ofRat ((100 : ℕ) : ℚ) = JsNum.fin ((100 : ℕ) : ℚ) :=
    JsNum.ofRat_natCast 100 (by norm_num)
  obtain ⟨y, hy, hy0, hy1⟩ := JsNum.ofRat_mono (x := t / 500) (by positivity)
    (by rw [div_le_iff₀ (by norm_num)]; push_cast; linarith) h1'
  obtain ⟨p, hp, hp0, hp1⟩ := JsNum.ofRat_mono (x := y * 100) (by positivity)
    (by push_cast at hy1 ⊢; linarith) h100
  refine ⟨p, ?_, hp0, by simpa using hp1, ?_⟩
  · rw [JsNum.fin_div_fin _ _ (by norm_num), hy, JsNum.fin_mul_fin, hp]
  · intro t' p' h0' hle hp'
    rw [JsNum.fin_div_fin _ _ (by norm_num)] at hp'
    obtain ⟨y', hy', hy0', hyle⟩ := JsNum.ofRat_mono (x := t' / 500) (by positivity)
      (div_le_div_of_nonneg_right hle (by norm_num)) hy
    rw [hy', JsNum.fin_mul_fin] at hp'
    obtain ⟨p'', hp'', _, hple⟩ := JsNum.ofRat_mono (x := y' * 100) (by positivity)
      (by linarith) hp
    rw [hp''] at hp'
    injection hp' with hp'
    rw [← hp']
    exact hple
/-- The rounding error of a positive value below `2 ^ (k + 1)`. -/
theorem ofRat_error {x a : ℚ} (hx : 0 < x) (h : JsNum.ofRat x = JsNum.fin a) (k : ℤ)
    (hk : -1022 ≤ k) (hlt : x < (2 : ℚ) ^ (k + 1)) : |a - x| ≤ (2 : ℚ) ^ (k - 52) / 2 := by
  obtain ⟨ha, _, _⟩ := JsNum.ofRat_eq_fin (le_of_lt hx) h
  rw [ha]
  have h1 := abs_nearestDouble_sub_le x
  have h2 := quantum_le x (ne_of_gt hx) k hk (by rw [abs_of_pos hx]; exact hlt)
  linarith

/-- The total of integer marks is their exact sum. -/
theorem total_of_naturals (l : List ℕ) :
    ∀ c : ℕ, c + l.sum < 2 ^ 53 →
      (l.map fun n : ℕ => JsNum.fin (n : ℚ)).foldl (fun a b => a + b) (JsNum.fin (c : ℚ)) =
        JsNum.fin ((c + l.sum : ℕ) : ℚ) := by
  induction l with
  | nil => intro c _; simp
  | cons x xs ih =>
    intro c hc
    simp only [List.sum_cons] at hc
    simp only [List.map_cons, List.foldl_cons, JsNum.fin_add_fin, List.sum_cons]
    have e : (c : ℚ) + (x : ℚ) = ((c + x : ℕ) : ℚ) := by push_cast; ring
    rw [e, JsNum.ofRat_natCast _ (by omega), ih (c + x) (by omega)]
    congr 2
    omega

/-- For an integer total up to 500, the percentage that the double arithmetic gives is
within `2 ^ (-45)` of the exact fifth of the total. -/
theorem percentage_of_natural_total (t : ℕ) (ht : t ≤ 500) (p : ℚ)
    (hp : JsNum.fin (t : ℚ) / JsNum.fin 500 * JsNum.fin 100 = JsNum.fin p) :
    |p - (t : ℚ) / 5| ≤ 1 / 2 ^ 45 := by
  rw [JsNum.fin_div_fin _ _ (by norm_num)] at hp
  rcases Nat.eq_zero_or_pos t with h0 | hpos
  · subst h0
    simp only [Nat.cast_zero, zero_div, JsNum.ofRat_zero, JsNum.fin_mul_fin, zero_mul] at hp
    injection hp with hp
    rw [← hp]
    norm_num
  · have htq : (0 : ℚ) < (t : ℚ) := by exact_mod_cast hpos
    have htle : (t : ℚ) ≤ 500 := by exact_mod_cast ht
    have hx : (0 : ℚ) < (t : ℚ) / 500 := by positivity
    have h1' : JsNum.ofRat ((1 : ℕ) : ℚ) = JsNum.fin ((1 : ℕ) : ℚ) :=
      JsNum.ofRat_natCast 1 (by norm_num)
    obtain ⟨y, hy, hy0, hy1⟩ := JsNum.ofRat_mono (x := (t : ℚ) / 500) (le_of_lt hx)
      (by rw [div_le_iff₀ (by norm_num)]; push_cast; linarith) h1'
    rw [hy, JsNum.fin_mul_fin] at hp
    have e1 := ofRat_error hx hy 0 (by norm_num)
      (by rw [div_lt_iff₀ (by norm_num)]; norm_num; linarith)
    rw [abs_le] at e1
    have e1l : (t : ℚ) / 500 - (2 : ℚ) ^ ((0 : ℤ) - 52) / 2 ≤ y := by linarith [e1.1]
    have e1u : y ≤ (t : ℚ) / 500 + (2 : ℚ) ^ ((0 : ℤ) - 52) / 2 := by linarith [e1.2]
    have hz1 : (2 : ℚ) ^ ((0 : ℤ) - 52) = 1 / 2 ^ 52 := by
      rw [show ((0 : ℤ) - 52) = -((52 : ℕ) : ℤ) by norm_num, zpow_neg, zpow_natCast]; norm_num
    have hz2 : (2 : ℚ) ^ ((6 : ℤ) - 52) = 1 / 2 ^ 46 := by
      rw [show ((6 : ℤ) - 52) = -((46 : ℕ) : ℤ) by norm_num, zpow_neg, zpow_natCast]; norm_num
    rw [hz1] at e1l e1u
    have ht500 : (1 : ℚ) / 500 ≤ (t : ℚ) / 500 := by
      apply div_le_div_of_nonneg_right _ (by norm_num)
      exact_mod_cast hpos
    have hypos : 0 < y := by
      have : (0 : ℚ) < 1 / 500 - 1 / 2 ^ 52 / 2 := by norm_num
      linarith
    have hy100 : (0 : ℚ) < y * 100 := by positivity
    push_cast at hy1
    have e2 := ofRat_error hy100 hp 6 (by norm_num) (by norm_num; linarith)
    rw [hz2, abs_le] at e2
    rw [abs_le]
    constructor
    · have : (1 : ℚ) / 2 ^ 46 / 2 + 100 * (1 / 2 ^ 52 / 2) ≤ 1 / 2 ^ 45 := by norm_num
      linarith [e2.1]
    · have : (1 : ℚ) / 2 ^ 46 / 2 + 100 * (1 / 2 ^ 52 / 2) ≤ 1 / 2 ^ 45 := by norm_num
      linarith [e2.2]
/-- For an integer total, the computed percentage reaches an integer threshold `c`
exactly when the total reaches `5 c`, given that the total `5 c` computes to `c`. -/
theorem threshold_of_natural_total (t : ℕ) (ht : t ≤ 500) (p : ℚ)
    (hp : JsNum.fin (t : ℚ) / JsNum.fin 500 * JsNum.fin 100 = JsNum.fin p) (c : ℕ)
    (hc : JsNum.fin ((5 * c : ℕ) : ℚ) / JsNum.fin 500 * JsNum.fin 100 = JsNum.fin (c : ℚ)) :
    (c : ℚ) ≤ p ↔ 5 * c ≤ t := by
  have herr := percentage_of_natural_total t ht p hp
  rw [abs_le] at herr
  constructor
  · intro hle
    by_contra hlt
    have h1 : t + 1 ≤ 5 * c := by omega
    have h2 : (t : ℚ) + 1 ≤ 5 * (c : ℚ) := by exact_mod_cast h1
    have h3 : (1 : ℚ) / 2 ^ 45 < 1 / 5 := by norm_num
    linarith [herr.2]
  · intro hle
    obtain ⟨p0, hp0, _, _, hmono⟩ := percentage_of_total (t : ℚ) (Nat.cast_nonneg t)
      (by exact_mod_cast ht)
    rw [hp] at hp0
    injection hp0 with hp0
    rw [hp0]
    exact hmono _ _ (Nat.cast_nonneg _) (by exact_mod_cast hle) hc

/-- The string that `toFixed(2)` gives to the computed percentage of an integer total
is the exact percentage: `20 t` hundredths. -/
theorem toFixed_of_natural_total (t : ℕ) (ht : t ≤ 500) (p : ℚ)
    (hp : JsNum.fin (t : ℚ) / JsNum.fin 500 * JsNum.fin 100 = JsNum.fin p) :
    toFixed (JsNum.fin p) 2 =
      ⟨Nat.toDigits 10 (20 * t / 100) ++
        ['.', Nat.digitChar (20 * t / 10 % 10), Nat.digitChar (20 * t % 10)]⟩ := by
  have herr := percentage_of_natural_total t ht p hp
  rw [abs_le] at herr
  obtain ⟨p0, hp0, h0, h100, _⟩ := percentage_of_total (t : ℚ) (Nat.cast_nonneg t)
    (by exact_mod_cast ht)
  rw [hp] at hp0
  injection hp0 with hp0
  rw [← hp0] at h0 h100
  obtain ⟨n, hn, hs⟩ := toFixed_two p h0 h100
  have hn20 : n = 20 * t := by
    rw [abs_le] at hn
    have hsmall : (1 : ℚ) / 2 ^ 45 < 1 / 400 := by norm_num
    have h1 : ((n : ℤ) : ℚ) < ((20 * t : ℕ) : ℤ) + 1 := by
      push_cast; linarith [hn.1, herr.2]
    have h2 : (((20 * t : ℕ) : ℤ) : ℚ) < (n : ℤ) + 1 := by
      push_cast; linarith [hn.2, herr.1]
    have h1' : (n : ℤ) < ((20 * t : ℕ) : ℤ) + 1 := by exact_mod_cast h1
    have h2' : ((20 * t : ℕ) : ℤ) < (n : ℤ) + 1 := by exact_mod_cast h2
    omega
  rw [hs, hn20]
/-- The rank of the division by thresholds is monotone in the percentage. -/
theorem divisionRank_thresholds_mono {pa pb : ℚ} (h : pa ≤ pb) :
    divisionRank (if 60 ≤ pa then "First Division"
        else if 45 ≤ pa then "Second Division"
        else if 33 ≤ pa then "Third Division"
        else "Fail") ≤
      divisionRank (if 60 ≤ pb then "First Division"
        else if 45 ≤ pb then "Second Division"
        else if 33 ≤ pb then "Third Division"
        else "Fail") := by
  by_cases b1 : 60 ≤ pb
  · rw [if_pos b1]
    split_ifs <;> decide
  · have a1 : ¬ 60 ≤ pa := fun hc => b1 (le_trans hc h)
    rw [if_neg b1, if_neg a1]
    by_cases b2 : 45 ≤ pb
    · rw [if_pos b2]
      split_ifs <;> decide
    · have a2 : ¬ 45 ≤ pa := fun hc => b2 (le_trans hc h)
      rw [if_neg b2, if_neg a2]
      by_cases b3 : 33 ≤ pb
      · rw [if_pos b3]
        split_ifs <;> decide
      · have a3 : ¬ 33 ≤ pa := fun hc => b3 (le_trans hc h)
        rw [if_neg b3, if_neg a3]

/-- The division is monotone in the total that the code computes. -/
theorem division_mono_of_totals (a b : List ℚ) (ha : a.length = 5) (hb : b.length = 5)
    (ha5 : ∀ x ∈ a, 0 ≤ x ∧ x ≤ 100) (hb5 : ∀ x ∈ b, 0 ≤ x ∧ x ≤ 100) :
    ∃ ta tb : ℚ,
      (a.map JsNum.fin).foldl (fun x y => x + y) (JsNum.fin 0) = JsNum.fin ta ∧
      (b.map JsNum.fin).foldl (fun x y => x + y) (JsNum.fin 0) = JsNum.fin tb ∧
      (ta ≤ tb →
        divisionRank (calculateResult (a.map JsNum.fin)).division ≤
          divisionRank (calculateResult (b.map JsNum.fin)).division) := by
  obtain ⟨ta, hta, hta0, hta1⟩ := total_bounds a ha5 0 0 le_rfl (by simp)
    (by rw [ha]; norm_num)
  obtain ⟨tb, htb, htb0, htb1⟩ := total_bounds b hb5 0 0 le_rfl (by simp)
    (by rw [hb]; norm_num)
  rw [ha] at hta1
  rw [hb] at htb1
  obtain ⟨pa, hpa, _, _, _⟩ := percentage_of_total ta hta0 (by push_cast at hta1; linarith)
  obtain ⟨pb, hpb, _, _, hmono⟩ := percentage_of_total tb htb0
    (by push_cast at htb1; linarith)
  refine ⟨ta, tb, hta, htb, ?_⟩
  intro hle
  rw [calculateResult_of_percentage _ pa (by rw [hta]; exact hpa),
    calculateResult_of_percentage _ pb (by rw [htb]; exact hpb)]
  exact divisionRank_thresholds_mono (hmono ta pa hta0 hle hpa)

/-! ## The claims -/

/-- C1, as stated, fails at the marks `76.6`, `50.1`, `60.7`, `80.4`, `32.2`: they are
the numbers that the form converts from these strings, each in `[0,100]`; their exact
percentage `(m1+m2+m3+m4+m5)/500*100` is at least 60, which the claim makes First
Division; the code adds them from left to right in double arithmetic, gets the total
`299.99999999999994`, and returns `60.00` with Second Division. -/
theorem C1_exact_percentage_not_code :
    ["76.6", "50.1", "60.7", "80.4", "32.2"].map toNumber = marksSecondOrder.map JsNum.fin ∧
    (∀ q ∈ marksSecondOrder, 0 ≤ q ∧ q ≤ 100) ∧
    60 ≤ marksSecondOrder.sum / 500 * 100 ∧
    (marksSecondOrder.map JsNum.fin).foldl (fun a b => a + b) (JsNum.fin 0) =
      JsNum.fin (5277655813324799 / 17592186044416) ∧
    calculateResult (marksSecondOrder.map JsNum.fin) =
      { percentage := "60.00", division := "Second Division" } := by
  refine ⟨by decide!, by decide!, by decide!, by decide!, by decide!⟩

/-- C1, amended: for five numbers in `[0,100]`, `calculateResult` returns the percentage
that the code computes in double arithmetic (the sum from left to right, divided by 500,
times 100, each step rounded to the nearest double), a finite value in `[0,100]`,
written with exactly two decimals (the digits of the integer part, a point and two
digits, the written value being the nearest hundredth), and the division by the
thresholds 60, 45 and 33 on that computed percentage, lower bounds inclusive. For
integer marks the written percentage is the exact `(m1+m2+m3+m4+m5)/500*100` and the
division is that of the exact percentage. The five concrete cases of the specification
hold. -/
theorem C1_calculateResult_spec :
    (∀ q1 q2 q3 q4 q5 : ℚ,
      (0 ≤ q1 ∧ q1 ≤ 100) → (0 ≤ q2 ∧ q2 ≤ 100) → (0 ≤ q3 ∧ q3 ≤ 100) →
      (0 ≤ q4 ∧ q4 ≤ 100) → (0 ≤ q5 ∧ q5 ≤ 100) →
      ∃ p : ℚ,
        [JsNum.fin q1, JsNum.fin q2, JsNum.fin q3, JsNum.fin q4, JsNum.fin q5].foldl
            (fun a b => a + b) (JsNum.fin 0) / JsNum.fin 500 * JsNum.fin 100 = JsNum.fin p ∧
        0 ≤ p ∧ p ≤ 100 ∧
        (∃ n : ℕ, |p * 100 - n| ≤ 1 / 2 ∧
          (calculateResult [JsNum.fin q1, JsNum.fin q2, JsNum.fin q3, JsNum.fin q4,
              JsNum.fin q5]).percentage =
            ⟨Nat.toDigits 10 (n / 100) ++
              ['.', Nat.digitChar (n / 10 % 10), Nat.digitChar (n % 10)]⟩) ∧
        (calculateResult [JsNum.fin q1, JsNum.fin q2, JsNum.fin q3, JsNum.fin q4,
            JsNum.fin q5]).division =
          (if 60 ≤ p then "First Division"
           else if 45 ≤ p then "Second Division"
           else if 33 ≤ p then "Third Division"
           else "Fail")) ∧
    (∀ m1 m2 m3 m4 m5 : ℕ, m1 ≤ 100 → m2 ≤ 100 → m3 ≤ 100 → m4 ≤ 100 → m5 ≤ 100 →
      (∃ n : ℕ, (n : ℚ) = ((m1 : ℚ) + m2 + m3 + m4 + m5) / 500 * 100 * 100 ∧
        (calculateResult [JsNum.fin m1, JsNum.fin m2, JsNum.fin m3, JsNum.fin m4,
            JsNum.fin m5]).percentage =
          ⟨Nat.toDigits 10 (n / 100) ++
            ['.', Nat.digitChar (n / 10 % 10), Nat.digitChar (n % 10)]⟩) ∧
      (calculateResult [JsNum.fin m1, JsNum.fin m2, JsNum.fin m3, JsNum.fin m4,
          JsNum.fin m5]).division =
        (if 60 ≤ ((m1 : ℚ) + m2 + m3 + m4 + m5) / 500 * 100 then "First Division"
         else if 45 ≤ ((m1 : ℚ) + m2 + m3 + m4 + m5) / 500 * 100 then "Second Division"
         else if 33 ≤ ((m1 : ℚ) + m2 + m3 + m4 + m5) / 500 * 100 then "Third Division"
         else "Fail")) ∧
    calculateResult [JsNum.fin 60, JsNum.fin 60, JsNum.fin 60, JsNum.fin 60, JsNum.fin 60] =
      { percentage := "60.00", division := "First Division" } ∧
    calculateResult [JsNum.fin 45, JsNum.fin 45, JsNum.fin 45, JsNum.fin 45, JsNum.fin 45] =
      { percentage := "45.00", division := "Second Division" } ∧
    calculateResult [JsNum.fin 33, JsNum.fin 33, JsNum.fin 33, JsNum.fin 33, JsNum.fin 33] =
      { percentage := "33.00", division := "Third Division" } ∧
    calculateResult [JsNum.fin 0, JsNum.fin 0, JsNum.fin 0, JsNum.fin 0, JsNum.fin 0] =
      { percentage := "0.00", division := "Fail" } ∧
    (calculateResult [JsNum.fin 59, JsNum.fin 60, JsNum.fin 60, JsNum.fin 60,
      JsNum.fin 60]).division = "Second Division" := by
  refine ⟨?_, ?_, by decide!, by decide!, by decide!, by decide!, by decide!⟩
  · intro q1 q2 q3 q4 q5 h1 h2 h3 h4 h5
    have hl : ∀ x ∈ [q1, q2, q3, q4, q5], 0 ≤ x ∧ x ≤ 100 := by
      intro x hx
      simp only [List.mem_cons, List.mem_singleton, List.not_mem_nil, or_false] at hx
      rcases hx with rfl | rfl | rfl | rfl | rfl <;> assumption
    obtain ⟨t, ht, ht0, ht1⟩ := total_bounds [q1, q2, q3, q4, q5] hl 0 0 le_rfl
      (by simp) (by norm_num)
    simp only [List.map_cons, List.map_nil] at ht
    obtain ⟨p, hp, hp0, hp1, _⟩ := percentage_of_total t ht0
      (by simp only [List.length_cons, List.length_nil] at ht1; push_cast at ht1; linarith)
    have hpct : [JsNum.fin q1, JsNum.fin q2, JsNum.fin q3, JsNum.fin q4, JsNum.fin q5].foldl
        (fun a b => a + b) (JsNum.fin 0) / JsNum.fin 500 * JsNum.fin 100 = JsNum.fin p := by
      rw [ht]; exact hp
    have hres := calculateResult_of_percentage _ p hpct
    obtain ⟨n, hn, hs⟩ := toFixed_two p hp0 hp1
    refine ⟨p, hpct, hp0, hp1, ⟨n, hn, ?_⟩, ?_⟩
    · rw [hres]; exact hs
    · rw [hres]
  · intro m1 m2 m3 m4 m5 h1 h2 h3 h4 h5
    have htot := total_of_naturals [m1, m2, m3, m4, m5] 0 (by simp; omega)
    simp only [List.map_cons, List.map_nil, Nat.cast_zero, List.sum_cons, List.sum_nil,
      Nat.zero_add, Nat.add_zero] at htot
    have ht500 : m1 + (m2 + (m3 + (m4 + m5))) ≤ 500 := by omega
    obtain ⟨p, hp, _, _, _⟩ := percentage_of_total ((m1 + (m2 + (m3 + (m4 + m5))) : ℕ) : ℚ)
      (Nat.cast_nonneg _) (by exact_mod_cast ht500)
    have hpct : [JsNum.fin (m1 : ℚ), JsNum.fin m2, JsNum.fin m3, JsNum.fin m4,
        JsNum.fin m5].foldl (fun a b => a + b) (JsNum.fin 0) / JsNum.fin 500 * JsNum.fin 100 =
        JsNum.fin p := by
      rw [htot]; exact hp
    have hres := calculateResult_of_percentage _ p hpct
    have hstr := toFixed_of_natural_total _ ht500 p hp
    have h60 := threshold_of_natural_total _ ht500 p hp 60 (by decide!)
    have h45 := threshold_of_natural_total _ ht500 p hp 45 (by decide!)
    have h33 := threshold_of_natural_total _ ht500 p hp 33 (by decide!)
    have hsum : ((m1 : ℚ) + m2 + m3 + m4 + m5) / 500 * 100 =
        ((m1 + (m2 + (m3 + (m4 + m5))) : ℕ) : ℚ) / 5 := by
      push_cast; ring
    have e60 : (60 ≤ p) ↔ (60 ≤ ((m1 : ℚ) + m2 + m3 + m4 + m5) / 500 * 100) := by
      rw [hsum, le_div_iff₀ (by norm_num)]
      have : ((60 : ℕ) : ℚ) ≤ p ↔ 5 * 60 ≤ m1 + (m2 + (m3 + (m4 + m5))) := h60
      rw [show ((60 : ℕ) : ℚ) = 60 by norm_num] at this
      rw [this]
      constructor
      · intro h; have : ((5 * 60 : ℕ) : ℚ) ≤ ((m1 + (m2 + (m3 + (m4 + m5))) : ℕ) : ℚ) := by
          exact_mod_cast h
        push_cast at this ⊢; linarith
      · intro h
        have : ((5 * 60 : ℕ) : ℚ) ≤ ((m1 + (m2 + (m3 + (m4 + m5))) : ℕ) : ℚ) := by
          push_cast at h ⊢; linarith
        exact_mod_cast this
    have e45 : (45 ≤ p) ↔ (45 ≤ ((m1 : ℚ) + m2 + m3 + m4 + m5) / 500 * 100) := by
      rw [hsum, le_div_iff₀ (by norm_num)]
      have : ((45 : ℕ) : ℚ) ≤ p ↔ 5 * 45 ≤ m1 + (m2 + (m3 + (m4 + m5))) := h45
      rw [show ((45 : ℕ) : ℚ) = 45 by norm_num] at this
      rw [this]
      constructor
      · intro h; have : ((5 * 45 : ℕ) : ℚ) ≤ ((m1 + (m2 + (m3 + (m4 + m5))) : ℕ) : ℚ) := by
          exact_mod_cast h
        push_cast at this ⊢; linarith
      · intro h
        have : ((5 * 45 : ℕ) : ℚ) ≤ ((m1 + (m2 + (m3 + (m4 + m5))) : ℕ) : ℚ) := by
          push_cast at h ⊢; linarith
        exact_mod_cast this
    have e33 : (33 ≤ p) ↔ (33 ≤ ((m1 : ℚ) + m2 + m3 + m4 + m5) / 500 * 100) := by
      rw [hsum, le_div_iff₀ (by norm_num)]
      have : ((33 : ℕ) : ℚ) ≤ p ↔ 5 * 33 ≤ m1 + (m2 + (m3 + (m4 + m5))) := h33
      rw [show ((33 : ℕ) : ℚ) = 33 by norm_num] at this
      rw [this]
      constructor
      · intro h; have : ((5 * 33 : ℕ) : ℚ) ≤ ((m1 + (m2 + (m3 + (m4 + m5))) : ℕ) : ℚ) := by
          exact_mod_cast h
        push_cast at this ⊢; linarith
      · intro h
        have : ((5 * 33 : ℕ) : ℚ) ≤ ((m1 + (m2 + (m3 + (m4 + m5))) : ℕ) : ℚ) := by
          push_cast at h ⊢; linarith
        exact_mod_cast this
    refine ⟨⟨20 * (m1 + (m2 + (m3 + (m4 + m5)))), ?_, ?_⟩, ?_⟩
    · push_cast; ring
    · rw [hres]; exact hstr
    · rw [hres]
      simp only [e60, e45, e33]

/-- C1 amended, at the integer marks 59, 60, 60, 60, 60: the written percentage is the
exact `59.80` and the division that of the exact percentage. -/
theorem C1_calculateResult_spec_witness :
    (∃ n : ℕ, (n : ℚ) = (((59 : ℕ) : ℚ) + (60 : ℕ) + (60 : ℕ) + (60 : ℕ) + (60 : ℕ)) /
        500 * 100 * 100 ∧
      (calculateResult [JsNum.fin (59 : ℕ), JsNum.fin (60 : ℕ), JsNum.fin (60 : ℕ),
          JsNum.fin (60 : ℕ), JsNum.fin (60 : ℕ)]).percentage =
        ⟨Nat.toDigits 10 (n / 100) ++
          ['.', Nat.digitChar (n / 10 % 10), Nat.digitChar (n % 10)]⟩) ∧
    (calculateResult [JsNum.fin (59 : ℕ), JsNum.fin (60 : ℕ), JsNum.fin (60 : ℕ),
        JsNum.fin (60 : ℕ), JsNum.fin (60 : ℕ)]).division =
      (if 60 ≤ (((59 : ℕ) : ℚ) + (60 : ℕ) + (60 : ℕ) + (60 : ℕ) + (60 : ℕ)) / 500 * 100 then
        "First Division"
       else if 45 ≤ (((59 : ℕ) : ℚ) + (60 : ℕ) + (60 : ℕ) + (60 : ℕ) + (60 : ℕ)) / 500 * 100
        then "Second Division"
       else if 33 ≤ (((59 : ℕ) : ℚ) + (60 : ℕ) + (60 : ℕ) + (60 : ℕ) + (60 : ℕ)) / 500 * 100
        then "Third Division"
       else "Fail") :=
  C1_calculateResult_spec.2.1 59 60 60 60 60 (by decide) (by decide) (by decide) (by decide)
    (by decide)

/-- C2: `handleSubmit` dispatches `ADD_STUDENT` or `UPDATE_STUDENT` exactly when the
trimmed name is non-empty and made of letters and spaces, the age converts to an integer
between 1 and 100, and every mark converts to a number in `[0,100]`; hence a name with
a digit or a punctuation character is rejected, and so is an age that is zero, negative,
not an integer or above 100. -/
theorem C2_commit_iff_valid (state : State) :
    (Commits state ↔ ValidName state ∧ ValidAge state ∧ ValidMarks state) ∧
    (∀ c ∈ state.name.data, IsDigit c ∨ IsPunctuation c → ¬ Commits state) ∧
    (∀ q : ℚ, state.age.toNumber = JsNum.fin q →
      q ≤ 0 ∨ (∀ n : ℤ, q ≠ n) ∨ 100 < q → ¬ Commits state) := by
  refine ⟨commits_iff state, ?_, ?_⟩
  · intro c hc hdp hcommit
    have hv := ((commits_iff state).mp hcommit).1
    have hw : isWhiteSpace c = false := by
      have h0 : '0'.toNat = 48 := rfl
      have h9 : '9'.toNat = 57 := rfl
      have e1 : '!'.toNat = 33 := rfl
      have e2 : '/'.toNat = 47 := rfl
      have e3 : ':'.toNat = 58 := rfl
      have e4 : '@'.toNat = 64 := rfl
      have e5 : '['.toNat = 91 := rfl
      have e6 : '~'.toNat = 126 := rfl
      unfold IsDigit IsPunctuation at hdp
      rw [h0, h9, e1, e2, e3, e4, e5, e6] at hdp
      unfold isWhiteSpace
      simp only [Bool.or_eq_false_iff, Bool.and_eq_false_iff, decide_eq_false_iff_not]
      omega
    have hmem : c ∈ (trim state.name).data := mem_trimChars hc hw
    have hls := hv.2 c hmem
    have h0 : '0'.toNat = 48 := rfl
    have h9 : '9'.toNat = 57 := rfl
    have e1 : '!'.toNat = 33 := rfl
    have e2 : '/'.toNat = 47 := rfl
    have e3 : ':'.toNat = 58 := rfl
    have e4 : '@'.toNat = 64 := rfl
    have e5 : '['.toNat = 91 := rfl
    have e6 : '~'.toNat = 126 := rfl
    have hA : 'A'.toNat = 65 := rfl
    have hZ : 'Z'.toNat = 90 := rfl
    have ha : 'a'.toNat = 97 := rfl
    have hz : 'z'.toNat = 122 := rfl
    unfold IsDigit IsPunctuation at hdp
    unfold IsLetter at hls
    rw [← toNat_eq_space] at hls
    rw [h0, h9, e1, e2, e3, e4, e5, e6] at hdp
    rw [hA, hZ, ha, hz] at hls
    omega
  · intro q hq hbad hcommit
    obtain ⟨n, hn, h1, h2⟩ := ((commits_iff state).mp hcommit).2.1
    rw [hq] at hn
    have hqn : q = n := JsNum.fin.inj hn
    rcases hbad with h | h | h
    · rw [hqn] at h
      have : (n : ℤ) ≤ 0 := by exact_mod_cast h
      omega
    · exact h n hqn
    · rw [hqn] at h
      have : (100 : ℤ) < n := by exact_mod_cast h
      omega

/-- C3: when a check fails, `handleSubmit` leaves the state as it was but for `errors`,
which becomes the message of the first failing check in the order name, age, marks,
whatever it held before. -/
theorem C3_first_error (state : State)
    (h : ¬ (ValidName state ∧ ValidAge state ∧ ValidMarks state)) :
    (¬ ValidName state →
      handleSubmit state =
        { state with errors := "Name should only contain letters and spaces." }) ∧
    (ValidName state → ¬ ValidAge state →
      handleSubmit state =
        { state with errors := "Age should be a positive integer between 1 and 100." }) ∧
    (ValidName state → ValidAge state →
      handleSubmit state = { state with errors := "All marks must be between 0 and 100." }) :=
  ⟨handleSubmit_name_error state, handleSubmit_age_error state,
    fun hn ha => handleSubmit_marks_error state hn ha fun hm => h ⟨hn, ha, hm⟩⟩

/-- C3, at the draft `Ann` with age `0`: the name passes, the age fails, and the age
message replaces the earlier name message. -/
theorem C3_first_error_witness :
    handleSubmit draftAgeZero =
      { draftAgeZero with errors := "Age should be a positive integer between 1 and 100." } :=
  (C3_first_error draftAgeZero
    (fun h => absurd ((ageRejected_eq_false draftAgeZero).mpr h.2.1) (by decide!))).2.1
    ((nameRejected_eq_false draftAgeZero).mp (by decide))
    (fun h => absurd ((ageRejected_eq_false draftAgeZero).mpr h) (by decide!))

/-- C4: with no edit in progress, a valid draft is appended as one record at the end of
the list, the earlier positions reading as before; the record holds the trimmed name,
the converted age and marks, and the percentage and division that `calculateResult`
gives to these marks; the draft is reset and the filters are kept. Submitting the same
draft again appends a second record with the same fields. -/
theorem C4_submit_appends (state : State) (he : state.editIndex = none)
    (hn : ValidName state) (ha : ValidAge state) (hm : ValidMarks state) :
    ∃ r : Student,
      r.name = trim state.name ∧ r.age = state.age.toNumber ∧
      r.marks = state.marks.map toNumber ∧
      r.percentage = (calculateResult r.marks).percentage ∧
      r.division = (calculateResult r.marks).division ∧
      (handleSubmit state).students.map Slot.read =
        state.students.map Slot.read ++ [some r] ∧
      ((∀ s ∈ state.students, s ≠ Slot.empty) →
        (handleSubmit state).students = state.students ++ [Slot.record r]) ∧
      (handleSubmit state).students.length = state.students.length + 1 ∧
      (handleSubmit state).name = "" ∧ (handleSubmit state).age = JsValue.str "" ∧
      (handleSubmit state).marks = ["", "", "", "", ""] ∧
      (handleSubmit state).preview = none ∧ (handleSubmit state).editIndex = none ∧
      (handleSubmit state).errors = "" ∧
      (handleSubmit state).filterName = state.filterName ∧
      (handleSubmit state).filterDivision = state.filterDivision ∧
      (handleSubmit { handleSubmit state with
          name := state.name, age := state.age, marks := state.marks }).students.map Slot.read =
        state.students.map Slot.read ++ [some r, some r] ∧
      (handleSubmit { handleSubmit state with
          name := state.name, age := state.age, marks := state.marks }).students.length =
        state.students.length + 2 := by
  have hs : handleSubmit state =
      reducer { state with errors := "" } (Action.ADD_STUDENT (draftStudent state)) := by
    rw [handleSubmit_valid state hn ha hm, he]
    rfl
  have hstud : (handleSubmit state).students =
      spread state.students ++ [Slot.record (draftStudent state)] := by rw [hs]; rfl
  -- the second submit, from the same draft typed again
  have hn2 : ValidName { handleSubmit state with
      name := state.name, age := state.age, marks := state.marks } := hn
  have ha2 : ValidAge { handleSubmit state with
      name := state.name, age := state.age, marks := state.marks } := ha
  have hm2 : ValidMarks { handleSubmit state with
      name := state.name, age := state.age, marks := state.marks } := hm
  have hs2 : (handleSubmit { handleSubmit state with
      name := state.name, age := state.age, marks := state.marks }).students =
      spread (handleSubmit state).students ++ [Slot.record (draftStudent state)] := by
    rw [handleSubmit_valid _ hn2 ha2 hm2]
    have : (handleSubmit state).editIndex = none := by rw [hs]; rfl
    simp only [this]
    rfl
  refine ⟨draftStudent state, rfl, rfl, rfl, rfl, rfl, ?_, ?_, ?_, ?_, ?_, ?_, ?_, ?_, ?_, ?_,
    ?_, ?_, ?_⟩
  · rw [hstud, List.map_append, map_read_spread]; rfl
  · intro hd; rw [hstud, spread_eq_self _ hd]
  · rw [hstud]; simp [spread_length]
  · rw [hs]; rfl
  · rw [hs]; rfl
  · rw [hs]; rfl
  · rw [hs]; rfl
  · rw [hs]; rfl
  · rw [hs]; rfl
  · rw [hs]; rfl
  · rw [hs]; rfl
  · rw [hs2, List.map_append, map_read_spread, hstud, List.map_append, map_read_spread]
    simp [Slot.read]
  · rw [hs2]; simp [spread_length, hstud]

/-- C4, at the draft ` Ann `, 20, five marks of 60, over the list `[bob]`: the list
becomes `[bob, ann]`. -/
theorem C4_submit_appends_witness :
    ∃ r : Student,
      r.name = trim draftAnn.name ∧ r.age = draftAnn.age.toNumber ∧
      r.marks = draftAnn.marks.map toNumber ∧
      r.percentage = (calculateResult r.marks).percentage ∧
      r.division = (calculateResult r.marks).division ∧
      (handleSubmit draftAnn).students.map Slot.read =
        draftAnn.students.map Slot.read ++ [some r] ∧
      ((∀ s ∈ draftAnn.students, s ≠ Slot.empty) →
        (handleSubmit draftAnn).students = draftAnn.students ++ [Slot.record r]) ∧
      (handleSubmit draftAnn).students.length = draftAnn.students.length + 1 ∧
      (handleSubmit draftAnn).name = "" ∧ (handleSubmit draftAnn).age = JsValue.str "" ∧
      (handleSubmit draftAnn).marks = ["", "", "", "", ""] ∧
      (handleSubmit draftAnn).preview = none ∧ (handleSubmit draftAnn).editIndex = none ∧
      (handleSubmit draftAnn).errors = "" ∧
      (handleSubmit draftAnn).filterName = draftAnn.filterName ∧
      (handleSubmit draftAnn).filterDivision = draftAnn.filterDivision ∧
      (handleSubmit { handleSubmit draftAnn with
          name := draftAnn.name, age := draftAnn.age,
          marks := draftAnn.marks }).students.map Slot.read =
        draftAnn.students.map Slot.read ++ [some r, some r] ∧
      (handleSubmit { handleSubmit draftAnn with
          name := draftAnn.name, age := draftAnn.age, marks := draftAnn.marks }).students.length =
        draftAnn.students.length + 2 :=
  C4_submit_appends draftAnn rfl
    ((nameRejected_eq_false draftAnn).mp (by decide))
    ((ageRejected_eq_false draftAnn).mp (by decide!))
    ((marksRejected_eq_false draftAnn).mp (by decide!))

/-- C5, at the empty form: the five empty mark strings convert to `0`, so the effect
dispatches the classification `0.00` / `Fail` instead of no preview; one empty mark among
four filled ones is counted as `0` as well. -/
theorem C5_empty_form_preview :
    previewValue initialState.marks = some { percentage := "0.00", division := "Fail" } ∧
    (reducer initialState (previewEffect initialState)).preview =
      some { percentage := "0.00", division := "Fail" } ∧
    (reducer (reducer initialState Action.CLEAR_FORM)
        (previewEffect (reducer initialState Action.CLEAR_FORM))).preview =
      some { percentage := "0.00", division := "Fail" } ∧
    previewValue ["", "50", "50", "50", "50"] =
      some { percentage := "40.00", division := "Third Division" } ∧
    previewValue ["abc", "50", "50", "50", "50"] = none ∧
    previewValue ["101", "50", "50", "50", "50"] = none := by
  refine ⟨by decide!, by decide!, by decide!, by decide!, by decide!, by decide!⟩

/-- C6, as stated, fails on `staleEdit`: the edit pointer 1 is outside the list of
length 1, and the update does not leave the list alone, it appends the record. -/
theorem C6_stale_update_not_noop :
    staleEdit.editIndex = some 1 ∧ staleEdit.students = [Slot.record bob] ∧
    ¬ (1 < staleEdit.students.length) ∧
    (reducer staleEdit (Action.UPDATE_STUDENT anna)).students =
      [Slot.record bob, Slot.record anna] ∧
    (reducer staleEdit (Action.UPDATE_STUDENT anna)).students ≠ staleEdit.students ∧
    (reducer staleEdit (Action.UPDATE_STUDENT anna)).students.length ≠
      staleEdit.students.length := by
  decide!

/-- C6, amended: `UPDATE_STUDENT` with record `r` replaces exactly the element at
position `editIndex` when that position is inside the list (same length, the other
positions read as before); when `editIndex` is at or past the end, the list is not left
as it was: it grows to length `editIndex + 1`, with `r` at position `editIndex`, empty
slots between the old end and that position, and the old positions read as before; with
no edit pointer the list reads as before; in every case the draft and the edit pointer
are reset. -/
theorem C6_update_replaces_or_extends (state : State) (r : Student) :
    (∀ i, state.editIndex = some i → i < state.students.length →
      (reducer state (Action.UPDATE_STUDENT r)).students.length = state.students.length ∧
      (reducer state (Action.UPDATE_STUDENT r)).students.map Slot.read =
        (state.students.map Slot.read).set i (some r) ∧
      ((∀ s ∈ state.students, s ≠ Slot.empty) →
        (reducer state (Action.UPDATE_STUDENT r)).students =
          state.students.set i (Slot.record r))) ∧
    (∀ i, state.editIndex = some i → state.students.length ≤ i →
      (reducer state (Action.UPDATE_STUDENT r)).students =
        spread state.students ++ List.replicate (i - state.students.length) Slot.empty ++
          [Slot.record r] ∧
      (reducer state (Action.UPDATE_STUDENT r)).students.length = i + 1 ∧
      (reducer state (Action.UPDATE_STUDENT r)).students.map Slot.read =
        state.students.map Slot.read ++ List.replicate (i - state.students.length) none ++
          [some r]) ∧
    (state.editIndex = none →
      (reducer state (Action.UPDATE_STUDENT r)).students.map Slot.read =
        state.students.map Slot.read) ∧
    (reducer state (Action.UPDATE_STUDENT r)).name = "" ∧
    (reducer state (Action.UPDATE_STUDENT r)).age = JsValue.str "" ∧
    (reducer state (Action.UPDATE_STUDENT r)).marks = ["", "", "", "", ""] ∧
    (reducer state (Action.UPDATE_STUDENT r)).preview = none ∧
    (reducer state (Action.UPDATE_STUDENT r)).editIndex = none ∧
    (reducer state (Action.UPDATE_STUDENT r)).errors = "" := by
  refine ⟨?_, ?_, ?_, rfl, rfl, rfl, rfl, rfl, rfl⟩
  · intro i hi hlt
    have hs : (reducer state (Action.UPDATE_STUDENT r)).students =
        (spread state.students).set i (Slot.record r) := by
      show (match state.editIndex with
        | some i => arrayAssign (spread state.students) i (Slot.record r)
        | none => spread state.students) = _
      rw [hi]
      simp only [arrayAssign, spread_length, if_pos hlt]
    refine ⟨?_, ?_, ?_⟩
    · rw [hs]; simp [spread_length]
    · rw [hs, List.map_set, map_read_spread]; rfl
    · intro hd; rw [hs, spread_eq_self _ hd]
  · intro i hi hge
    have hs : (reducer state (Action.UPDATE_STUDENT r)).students =
        spread state.students ++ List.replicate (i - state.students.length) Slot.empty ++
          [Slot.record r] := by
      show (match state.editIndex with
        | some i => arrayAssign (spread state.students) i (Slot.record r)
        | none => spread state.students) = _
      rw [hi]
      simp only [arrayAssign, spread_length, if_neg (not_lt.mpr hge)]
    refine ⟨hs, ?_, ?_⟩
    · rw [hs]; simp [spread_length]; omega
    · rw [hs]; simp [map_read_spread, Slot.read]
  · intro hnone
    show ((match state.editIndex with
        | some i => arrayAssign (spread state.students) i (Slot.record r)
        | none => spread state.students)).map Slot.read = _
    rw [hnone]
    exact map_read_spread _

/-- C6 amended, at `staleEdit` (edit pointer 1, list `[bob]`): the update gives
`[bob, anna]`, of length 2. -/
theorem C6_update_replaces_or_extends_witness :
    (reducer staleEdit (Action.UPDATE_STUDENT anna)).students =
        spread staleEdit.students ++ List.replicate (1 - staleEdit.students.length) Slot.empty ++
          [Slot.record anna] ∧
      (reducer staleEdit (Action.UPDATE_STUDENT anna)).students.length = 1 + 1 ∧
      (reducer staleEdit (Action.UPDATE_STUDENT anna)).students.map Slot.read =
        staleEdit.students.map Slot.read ++
          List.replicate (1 - staleEdit.students.length) none ++ [some anna] :=
  (C6_update_replaces_or_extends staleEdit anna).2.1 1 (by decide!) (by decide!)

/-- C7: edit round trip. Over a list of records produced by successful submits, the
Edit action for position `i` with the record at `i` copies the name, the age and the
marks (as strings) into the draft and sets the edit pointer to `i`; submitting that
draft unchanged passes the three checks, rebuilds the same record (name, age, marks,
percentage and division), and leaves the students list equal to the original one. -/
theorem C7_edit_roundtrip (state : State) (rs : List Student) (i : Nat) (hi : i < rs.length)
    (hrs : state.students = rs.map Slot.record) (hsub : ∀ r ∈ rs, Submitted r) :
    (reducer state (Action.EDIT_STUDENT i (rs.get ⟨i, hi⟩))).editIndex = some i ∧
    (reducer state (Action.EDIT_STUDENT i (rs.get ⟨i, hi⟩))).name = (rs.get ⟨i, hi⟩).name ∧
    (reducer state (Action.EDIT_STUDENT i (rs.get ⟨i, hi⟩))).age =
      JsValue.num (rs.get ⟨i, hi⟩).age ∧
    (reducer state (Action.EDIT_STUDENT i (rs.get ⟨i, hi⟩))).marks =
      (rs.get ⟨i, hi⟩).marks.map numberToString ∧
    ValidName (reducer state (Action.EDIT_STUDENT i (rs.get ⟨i, hi⟩))) ∧
    ValidAge (reducer state (Action.EDIT_STUDENT i (rs.get ⟨i, hi⟩))) ∧
    ValidMarks (reducer state (Action.EDIT_STUDENT i (rs.get ⟨i, hi⟩))) ∧
    Commits (reducer state (Action.EDIT_STUDENT i (rs.get ⟨i, hi⟩))) ∧
    draftStudent (reducer state (Action.EDIT_STUDENT i (rs.get ⟨i, hi⟩))) = rs.get ⟨i, hi⟩ ∧
    (handleSubmit (reducer state (Action.EDIT_STUDENT i (rs.get ⟨i, hi⟩)))).students =
      state.students := by
  obtain ⟨st, hn, ha, hm, hr⟩ := hsub (rs.get ⟨i, hi⟩) (List.get_mem _ _ _)
  generalize hg : rs.get ⟨i, hi⟩ = r at hr ⊢
  -- the draft after the Edit action
  have hname : (reducer state (Action.EDIT_STUDENT i r)).name = trim st.name := by
    rw [hr]; rfl
  have hage : (reducer state (Action.EDIT_STUDENT i r)).age = JsValue.num st.age.toNumber := by
    rw [hr]; rfl
  have hmarks : (reducer state (Action.EDIT_STUDENT i r)).marks =
      (st.marks.map toNumber).map numberToString := by
    rw [hr]; rfl
  have hidx : (reducer state (Action.EDIT_STUDENT i r)).editIndex = some i := rfl
  have hstud : (reducer state (Action.EDIT_STUDENT i r)).students = state.students := rfl
  -- each mark converts back to the number it came from
  have hback : ∀ s ∈ st.marks, toNumber (numberToString (toNumber s)) = toNumber s := by
    intro s hs
    obtain ⟨q, hq, h0, _⟩ := hm s hs
    rw [hq]
    exact toNumber_numberToString q h0 (toNumber_decimal s q hq) (toNumber_double s q hq h0)
  have hconv : ((st.marks.map toNumber).map numberToString).map toNumber =
      st.marks.map toNumber := by
    rw [List.map_map, List.map_map]
    apply List.map_congr_left
    intro s hs
    exact hback s hs
  have hvn : ValidName (reducer state (Action.EDIT_STUDENT i r)) := by
    unfold ValidName
    rw [hname, trim_idem]
    exact hn
  have hva : ValidAge (reducer state (Action.EDIT_STUDENT i r)) := by
    unfold ValidAge
    rw [hage]
    exact ha
  have hvm : ValidMarks (reducer state (Action.EDIT_STUDENT i r)) := by
    unfold ValidMarks
    rw [hmarks]
    intro s hs
    rw [List.map_map] at hs
    obtain ⟨s0, hs0, rfl⟩ := List.mem_map.mp hs
    obtain ⟨q, hq, h0, h1⟩ := hm s0 hs0
    exact ⟨q, by rw [Function.comp_apply, hback s0 hs0, hq], h0, h1⟩
  have hdraft : draftStudent (reducer state (Action.EDIT_STUDENT i r)) = r := by
    unfold draftStudent
    simp only [hname, hage, hmarks, hconv, trim_idem]
    rw [hr]
    rfl
  refine ⟨hidx, by rw [hr]; rfl, by rw [hr]; rfl, by rw [hr]; rfl, hvn, hva, hvm,
    (commits_iff _).mpr ⟨hvn, hva, hvm⟩, hdraft, ?_⟩
  rw [handleSubmit_valid _ hvn hva hvm, hdraft]
  have hne : (reducer state (Action.EDIT_STUDENT i r)).editIndex ≠ none := by
    rw [hidx]; exact fun h => by cases h
  rw [if_pos hne]
  show (match (reducer state (Action.EDIT_STUDENT i r)).editIndex with
    | some i => arrayAssign (spread (reducer state (Action.EDIT_STUDENT i r)).students) i
        (Slot.record r)
    | none => spread (reducer state (Action.EDIT_STUDENT i r)).students) = state.students
  rw [hidx]
  simp only
  rw [← hg]
  have h := arrayAssign_self rs i hi
  rw [← hrs] at h
  exact h

/-- C7, at the list `[ann]` (the record committed from the draft ` Ann `, 20, five marks
of 60) and position 0: Edit then submit gives the list `[ann]` again. -/
theorem C7_edit_roundtrip_witness :
    (handleSubmit (reducer { initialState with students := [ann].map Slot.record }
        (Action.EDIT_STUDENT 0 ([ann].get ⟨0, by decide⟩)))).students =
      [ann].map Slot.record :=
  (C7_edit_roundtrip { initialState with students := [ann].map Slot.record } [ann] 0
    (by decide) rfl
    (by
      intro r hr
      rw [List.mem_singleton.mp hr]
      exact ⟨draftAnn, (nameRejected_eq_false draftAnn).mp (by decide),
        (ageRejected_eq_false draftAnn).mp (by decide!),
        (marksRejected_eq_false draftAnn).mp (by decide!), by decide!⟩)).2.2.2.2.2.2.2.2.2

/-- C8, as stated, fails on `filteredToAnn`: the filter `ANN` is a case variation of the
full name of the record `ann`, the division selector is `All`, and the result holds the
two records `ann` and `anna`, not the single `ann`. -/
theorem C8_name_filter_not_single :
    Slot.record ann ∈ filteredToAnn.students ∧
    toLowerCase filteredToAnn.filterName = toLowerCase ann.name ∧
    filteredToAnn.filterDivision = "All" ∧
    filteredStudents filteredToAnn = some [ann, anna] ∧
    filteredStudents filteredToAnn ≠ some [ann] := by
  decide!

/-- C8, amended: over a list of records, with the selector `All` and a name filter that
is a case variation of the name of a record `r` of the list, the result is the
subsequence of the records whose name contains the name of `r` without regard to case;
`r` is among them, and the result is `[r]` when `r` is the only such record and occurs
once. With the selector `All` the division does not filter (the result is the list
filtered by name, the whole list for the empty name filter). With a name filter that no
record's name contains, the result is empty for every selector. -/
theorem C8_filter_view (state : State) (rs : List Student)
    (h : state.students = rs.map Slot.record) :
    (∀ r ∈ rs, toLowerCase state.filterName = toLowerCase r.name →
      state.filterDivision = "All" →
      filteredStudents state =
        some (rs.filter fun s => includes (toLowerCase s.name) (toLowerCase r.name)) ∧
      r ∈ (rs.filter fun s => includes (toLowerCase s.name) (toLowerCase r.name)) ∧
      ((∀ s ∈ rs, includes (toLowerCase s.name) (toLowerCase r.name) = true → s = r) →
        rs.count r = 1 → filteredStudents state = some [r])) ∧
    (state.filterDivision = "All" →
      filteredStudents state =
        some (rs.filter fun s =>
          includes (toLowerCase s.name) (toLowerCase state.filterName))) ∧
    (state.filterDivision = "All" → state.filterName = "" →
      filteredStudents state = some rs) ∧
    ((∀ s ∈ rs, includes (toLowerCase s.name) (toLowerCase state.filterName) = false) →
      filteredStudents state = some []) := by
  have hall : state.filterDivision = "All" →
      filteredStudents state =
        some (rs.filter fun s =>
          includes (toLowerCase s.name) (toLowerCase state.filterName)) := by
    intro hd
    rw [filteredStudents_records state rs h]
    simp [hd]
  refine ⟨?_, hall, ?_, ?_⟩
  · intro r hr hv hd
    have hself : includes (toLowerCase r.name) (toLowerCase r.name) = true :=
      includesChars_self _
    refine ⟨?_, ?_, ?_⟩
    · rw [hall hd, hv]
    · exact List.mem_filter.mpr ⟨hr, hself⟩
    · intro honly hcount
      rw [hall hd, hv]
      have hfe : (rs.filter fun s => includes (toLowerCase s.name) (toLowerCase r.name)) =
          rs.filter (fun s => s == r) := by
        apply List.filter_congr
        intro s hs
        by_cases hsr : s = r
        · subst hsr; simp [hself]
        · have : includes (toLowerCase s.name) (toLowerCase r.name) = false := by
            rw [← Bool.not_eq_true]
            exact fun hc => hsr (honly s hs hc)
          simp [this, hsr]
      rw [hfe, List.filter_beq, hcount]
      rfl
  · intro hd hname
    rw [hall hd, hname]
    have : ∀ s : Student, includes (toLowerCase s.name) (toLowerCase "") = true :=
      fun s => includesChars_nil _
    simp [this]
  · intro hnone
    rw [filteredStudents_records state rs h]
    congr 1
    apply List.filter_eq_nil_iff.mpr
    intro s hs
    simp [hnone s hs]

/-- C8 amended, at the records `ann` and `bob` with the filter `ANN`: the result is
`[ann]`. -/
theorem C8_filter_view_witness :
    filteredStudents
        { initialState with
          students := [ann, bob].map Slot.record, filterName := "ANN" } = some [ann] :=
  ((C8_filter_view
      { initialState with students := [ann, bob].map Slot.record, filterName := "ANN" }
      [ann, bob] rfl).1 ann (by decide) (by decide) rfl).2.2
    (by decide) (by decide)

/-- C9, as stated, fails at two orders of the same five marks `76.6`, `50.1`, `60.7`,
`32.2`, `80.4`: the marks are in `[0,100]` and the two sums are equal, but the code adds
from left to right in double arithmetic and gives First Division to the first order and
Second Division to the second, which is strictly worse. -/
theorem C9_order_changes_division :
    marksFirstOrder.length = 5 ∧ marksSecondOrder.length = 5 ∧
    (∀ q ∈ marksFirstOrder, 0 ≤ q ∧ q ≤ 100) ∧ (∀ q ∈ marksSecondOrder, 0 ≤ q ∧ q ≤ 100) ∧
    marksFirstOrder.sum ≤ marksSecondOrder.sum ∧
    (calculateResult (marksFirstOrder.map JsNum.fin)).division = "First Division" ∧
    (calculateResult (marksSecondOrder.map JsNum.fin)).division = "Second Division" ∧
    ¬ (divisionRank (calculateResult (marksFirstOrder.map JsNum.fin)).division ≤
      divisionRank (calculateResult (marksSecondOrder.map JsNum.fin)).division) := by
  refine ⟨by decide!, by decide!, by decide!, by decide!, by decide!, by decide!, by decide!,
    by decide!⟩

/-- C9, amended: classification is monotonic in the total as the code computes it (the
sum from left to right in double arithmetic): for two tuples of five marks in `[0,100]`
the computed totals are finite, and if the computed total of the first is at most that
of the second, the division of the second is not worse than the division of the first.
For integer marks the computed total is the exact sum, so the division is monotonic in
the sum. -/
theorem C9_division_monotone :
    (∀ a b : List ℚ, a.length = 5 → b.length = 5 →
      (∀ x ∈ a, 0 ≤ x ∧ x ≤ 100) → (∀ x ∈ b, 0 ≤ x ∧ x ≤ 100) →
      ∃ ta tb : ℚ,
        (a.map JsNum.fin).foldl (fun x y => x + y) (JsNum.fin 0) = JsNum.fin ta ∧
        (b.map JsNum.fin).foldl (fun x y => x + y) (JsNum.fin 0) = JsNum.fin tb ∧
        (ta ≤ tb →
          divisionRank (calculateResult (a.map JsNum.fin)).division ≤
            divisionRank (calculateResult (b.map JsNum.fin)).division)) ∧
    (∀ a b : List ℕ, a.length = 5 → b.length = 5 →
      (∀ x ∈ a, x ≤ 100) → (∀ x ∈ b, x ≤ 100) → a.sum ≤ b.sum →
      divisionRank (calculateResult (a.map fun n : ℕ => JsNum.fin (n : ℚ))).division ≤
        divisionRank (calculateResult (b.map fun n : ℕ => JsNum.fin (n : ℚ))).division) := by
  refine ⟨division_mono_of_totals, ?_⟩
  intro a b ha hb ha5 hb5 hsum
  have hbound : ∀ l : List ℕ, l.length = 5 → (∀ x ∈ l, x ≤ 100) → l.sum ≤ 500 := by
    intro l hl h5
    have : l.sum ≤ l.length * 100 := by
      apply List.sum_le_card_nsmul
      exact h5
    omega
  have hsa := hbound a ha ha5
  have hsb := hbound b hb hb5
  have hcast : ∀ l : List ℕ, (l.map fun n : ℕ => JsNum.fin (n : ℚ)) =
      (l.map fun n : ℕ => (n : ℚ)).map JsNum.fin := by
    intro l; rw [List.map_map]; rfl
  have hta := total_of_naturals a 0 (by omega)
  have htb := total_of_naturals b 0 (by omega)
  simp only [Nat.cast_zero, Nat.zero_add] at hta htb
  obtain ⟨ta, tb, hta', htb', hmono⟩ := division_mono_of_totals
    (a.map fun n : ℕ => (n : ℚ)) (b.map fun n : ℕ => (n : ℚ)) (by simpa using ha)
    (by simpa using hb)
    (by
      intro x hx
      obtain ⟨n, hn, rfl⟩ := List.mem_map.mp hx
      exact ⟨Nat.cast_nonneg n, by exact_mod_cast ha5 n hn⟩)
    (by
      intro x hx
      obtain ⟨n, hn, rfl⟩ := List.mem_map.mp hx
      exact ⟨Nat.cast_nonneg n, by exact_mod_cast hb5 n hn⟩)
  rw [← hcast] at hta' htb'
  rw [hta] at hta'
  rw [htb] at htb'
  injection hta' with hta'
  injection htb' with htb'
  rw [hcast a, hcast b]
  apply hmono
  rw [← hta', ← htb']
  exact_mod_cast hsum

/-- C9 amended, at the integer marks `[59,60,60,60,60]` and `[60,60,60,60,60]`. -/
theorem C9_division_monotone_witness :
    divisionRank (calculateResult
        ([59, 60, 60, 60, 60].map fun n : ℕ => JsNum.fin (n : ℚ))).division ≤
      divisionRank (calculateResult
        ([60, 60, 60, 60, 60].map fun n : ℕ => JsNum.fin (n : ℚ))).division :=
  C9_division_monotone.2 [59, 60, 60, 60, 60] [60, 60, 60, 60, 60] rfl rfl
    (by decide) (by decide) (by decide)

/-- C10, at the filter `Fail` over `[ann, bob]`: the table shows `bob` on row 0; the
Delete button of that row removes `ann` and keeps `bob`; the Edit button of that row
loads `bob` into the draft with the edit pointer 0, the position of `ann`, and the update
that follows overwrites `ann`. -/
theorem C10_row_actions_under_filter :
    filteredStudents filteredToFail = some [bob] ∧
    (reducer filteredToFail (rowDeleteAction 0)).students = [Slot.record bob] ∧
    (reducer filteredToFail (rowEditAction 0 bob)).editIndex = some 0 ∧
    (reducer filteredToFail (rowEditAction 0 bob)).name = "Bob" ∧
    filteredToFail.students.get? 0 = some (Slot.record ann) ∧
    (reducer (reducer filteredToFail (rowEditAction 0 bob))
        (Action.UPDATE_STUDENT anna)).students = [Slot.record anna, Slot.record bob] := by
  decide!

end StudentForm
